import Mathlib

set_option maxHeartbeats 1600000

attribute [local semireducible] Rat.add Rat.mul Rat.inv Rat.sub

/-!
Shallow embedding of the ACO solver in `src/aco.py`.

Modelling conventions:
* Nodes are natural numbers; a `Graph` carries the node list (in `node_list`
  order), the ordered out-neighbour lists (`cities.neighbors`), the edge
  weights (already including the `.get('weight', 0.0)` default), and the
  external `nx.shortest_path` oracle (`none` models `NetworkXNoPath`).
* Python floats are modelled by `ℚ`; the distance values that may be
  `float('inf')` are modelled by `WithTop ℚ` (`⊤` = infinity).
* The dense `n × n` numpy pheromone matrix addressed through the injective
  `node_to_idx` map is modelled as a function `Node → Node → ℚ`; a
  `node_to_idx` lookup of a non-node raises `KeyError`, modelled by `Err.keyErr`.
* Exceptions (`ZeroDivisionError`, `KeyError`, `NetworkXNoPath`,
  `ValueError` from `random.choices`/`min`, `IndexError`, and the explicit
  `Exception("route not found")`) are modelled with `Except Err`.
* `random.choice`/`random.choices` draw from a caller-supplied stream
  `rng : ℕ → ℕ` of raw numbers consumed one per call; a plain choice picks
  `l[rng t % l.length]`, a weighted choice picks among the elements of
  positive weight (the support of the real distribution).  Python's set
  `unvisited` is modelled as a list in node order.
* The exponents `alpha`, `beta` are modelled as naturals (the program uses
  the integer defaults 1 and 2).
-/

abbrev Node := ℕ

abbrev DistQ := WithTop ℚ

abbrev Phm := Node → Node → ℚ

inductive Err where
  | keyErr | zeroDiv | noPath | valueErr | indexErr | fuelOut | notFound
  deriving DecidableEq

deriving instance DecidableEq for Except

structure Graph where
  nodes : List Node
  adj : Node → List Node
  w : Node → Node → ℚ
  sp : Node → Node → Option (List Node)

/-- `self.cities.has_edge(u, v)`. -/
def hasEdge (g : Graph) (u v : Node) : Bool := (g.adj u).contains v

/-- `nx.to_numpy_array(cities, weight=None)`: 1 where an edge exists, else 0. -/
def initPheromone (g : Graph) : Phm := fun u v => if hasEdge g u v then 1 else 0

/-- `route_distance` (src/aco.py lines 111-120): sums consecutive-edge
weights from the first to the last element, returning infinity as soon as a
consecutive pair is not an edge. -/
def route_distance (g : Graph) : List Node → DistQ
  | u :: v :: rest =>
    if hasEdge g u v then ((g.w u v : ℚ) : DistQ) + route_distance g (v :: rest) else ⊤
  | _ => ((0 : ℚ) : DistQ)

/-- Spec-side description of the same sum (C3): total weight of the
consecutive directed edges of the route, first to last, no wrap-around. -/
def pathWeight (g : Graph) : List Node → ℚ
  | u :: v :: rest => g.w u v + pathWeight g (v :: rest)
  | _ => 0

/-- The index pairs `(route[i], route[(i+1) % len(route)])` visited by the
loops of `update_pheromones` (and, for `i < len - 1`, of `route_distance`). -/
def routePairs (route : List Node) : List (Node × Node) :=
  (List.range route.length).map fun i =>
    (route.getD i 0, route.getD ((i + 1) % route.length) 0)

/-- The wrap-around pairs of the route that are actual graph edges: exactly
the pheromone entries that receive a deposit in `update_pheromones`. -/
def routeEdges (g : Graph) (route : List Node) : List (Node × Node) :=
  (routePairs route).filter fun uv => hasEdge g uv.1 uv.2

/-- `pherm_rate / distance` as evaluated by Python floats: `rate / inf = 0`,
`rate / 0` raises `ZeroDivisionError`. -/
def depositE (rate : ℚ) (dist : DistQ) : Except Err ℚ :=
  match dist with
  | none => .ok 0
  | some q => if q = 0 then .error .zeroDiv else .ok (rate / q)

/-- One step of the deposit loop of `update_pheromones`: look up both node
indices (`KeyError` if a node is not in the graph), then, if the edge exists,
add `rate / distance` to that entry. -/
def depStep (g : Graph) (rate : ℚ) (dist : DistQ) (p : Phm) (uv : Node × Node) :
    Except Err Phm :=
  if uv.1 ∈ g.nodes then
    if uv.2 ∈ g.nodes then
      if hasEdge g uv.1 uv.2 then
        match depositE rate dist with
        | .error e => .error e
        | .ok d => .ok fun a b => if a = uv.1 ∧ b = uv.2 then p a b + d else p a b
      else .ok p
    else .error .keyErr
  else .error .keyErr

/-- `update_pheromones` (src/aco.py lines 100-110): no-op on an empty route;
otherwise multiply the whole matrix by the evaporation factor, then deposit
`rate / distance` on every wrap-around pair of the route that is a graph
edge. -/
def update_pheromones (g : Graph) (evap : ℚ) (ph : Phm) (route : List Node)
    (dist : DistQ) (rate : ℚ) : Except Err Phm :=
  if route.isEmpty then .ok ph
  else (routePairs route).foldlM (depStep g rate dist) fun u v => evap * ph u v

/-- The in-place slice assignment of the archive-insertion loop at slot `i`:
`l[i+1:] = l[i:-1]` followed by `l[i] = x` (for `i = len l - 1` the slice
assignment is skipped by the source, but the formula below agrees with the
plain `l[i] = x` it performs there). -/
def offerShift (l : List α) (i : ℕ) (x : α) : List α :=
  l.take i ++ x :: (l.drop i).dropLast

/-- The archive-insertion loop of `construct_solution` (src/aco.py lines
42-48): `for i, best_distance in enumerate(best_distances): if distance <
best_distance: shift and insert`.  `enumerate` iterates over the live,
mutating list; since every mutation preserves the length, running the index
`i` for `best_distances.length` initial steps (the `fuel` argument) is the
exact behaviour. -/
def offerLoop (route : List Node) (d : DistQ) :
    ℕ → ℕ → List (List Node) × List DistQ → List (List Node) × List DistQ
  | _, 0, s => s
  | i, fuel + 1, (br, bd) =>
    offerLoop route d (i + 1) fuel
      (if d < bd.getD i ⊤ then (offerShift br i route, offerShift bd i d) else (br, bd))

/-- One `Offer`: run the insertion loop over every slot of the archive. -/
def offer (route : List Node) (d : DistQ) (br : List (List Node)) (bd : List DistQ) :
    List (List Node) × List DistQ :=
  offerLoop route d 0 bd.length (br, bd)

/-- The distance column of the insertion loop, re-expressed as a recursion on
the suffix of the archive that the loop can still touch (proved equivalent to
`offerLoop` in `offerLoop_snd_eq`); used to reason about sortedness. -/
def tl (d : DistQ) : ℕ → List DistQ → List DistQ
  | 0, s => s
  | _ + 1, [] => []
  | fuel + 1, x :: s =>
    if d < x then d :: tl d fuel ((x :: s).dropLast) else x :: tl d fuel s

/-- The initial Elite Archive: `n_ants` copies of `([], inf)`
(src/aco.py lines 22 and 33). -/
def initArchive (n : ℕ) : List (List Node) × List DistQ :=
  (List.replicate n [], List.replicate n ⊤)

/-- A sequence of `Offer` calls applied in order. -/
def applyOffers (offers : List (List Node × DistQ)) (s : List (List Node) × List DistQ) :
    List (List Node) × List DistQ :=
  offers.foldl (fun s o => offer o.1 o.2 s.1 s.2) s

/-- Python's `min(best_distances)` (error on an empty list is handled at the
call site); order-insensitive fold. -/
def minList (bd : List DistQ) : DistQ := bd.foldl min ⊤

/-- Python's `sum(best_distances) / len(best_distances)`:
`inf` absorbs the sum, and division by the length happens on floats. -/
def avgList (bd : List DistQ) : DistQ :=
  match bd.sum with
  | none => ⊤
  | some q => some (q / bd.length)

/-- `1.0 / distance` on floats: `1 / inf = 0.0`, `1 / 0.0` raises
`ZeroDivisionError`. -/
def invDist (dist : DistQ) : Except Err ℚ :=
  match dist with
  | none => .ok 0
  | some q => if q = 0 then .error .zeroDiv else .ok (1 / q)

/-- The attraction loop of `calculate_probabilities` (src/aco.py lines
87-95): for each candidate city, look up its index (`KeyError` if absent),
read the pheromone, compute the single-edge distance and the heuristic
`(1/distance) ** beta`, and multiply. -/
def attraction_list (g : Graph) (ph : Phm) (alpha beta : ℕ) (current : Node) :
    List Node → Except Err (List ℚ)
  | [] => .ok []
  | city :: rest =>
    if city ∈ g.nodes then
      match invDist (route_distance g [current, city]) with
      | .error e => .error e
      | .ok r =>
        match attraction_list g ph alpha beta current rest with
        | .error e => .error e
        | .ok hs => .ok ((ph current city ^ alpha * r ^ beta) :: hs)
    else .error .keyErr

/-- `calculate_probabilities` (src/aco.py lines 82-98): empty candidate list
gives `[]`; otherwise normalise the attractions, falling back to the uniform
distribution `1/len` when their total is zero. -/
def calculate_probabilities (g : Graph) (ph : Phm) (alpha beta : ℕ)
    (current : Node) (possible_next : List Node) : Except Err (List ℚ) :=
  if possible_next.isEmpty then .ok []
  else if current ∈ g.nodes then
    match attraction_list g ph alpha beta current possible_next with
    | .error e => .error e
    | .ok ps =>
      if ps.sum = 0 then
        .ok (List.replicate possible_next.length ((1 : ℚ) / possible_next.length))
      else .ok (ps.map fun p => p / ps.sum)
  else .error .keyErr

/-- The support of a weighted draw: the population elements paired with a
positive weight (the only elements `random.choices` can return when the
weights are non-negative). -/
def suppOf (pop : List Node) (ws : List ℚ) : List (Node × ℚ) :=
  (pop.zip ws).filter fun p => decide (0 < p.2)

/-- `random.choices(pop, weights=ws, k=1)[0]`: `ValueError` when the total
weight is not positive, otherwise an element of the support (the entries of
positive weight), selected by the random stream. -/
def weightedChoice (rng : ℕ → ℕ) (t : ℕ) (pop : List Node) (ws : List ℚ) :
    Except Err Node :=
  if ws.sum ≤ 0 then .error .valueErr
  else .ok ((suppOf pop ws).getD (rng t % (suppOf pop ws).length) (0, 0)).1

/-- Lines 64-67 of `ant_tour`: the candidate list `possible_next` — the
unvisited out-neighbours of the current node, falling back to the whole
unvisited set when no neighbour is unvisited. -/
def candidates (g : Graph) (unvisited : List Node) (current : Node) : List Node :=
  let pn0 := (g.adj current).filter fun n => unvisited.contains n
  if pn0.isEmpty then unvisited else pn0

/-- The result of one iteration of the `while unvisited` body of `ant_tour`,
with the instrumentation field `fellBack` recording whether the
`random.choice(list(neighbors))` branch was taken. -/
structure StepRes where
  next : Node
  fellBack : Bool
  route : List Node
  unvisited : List Node
  t : ℕ
  deriving DecidableEq

/-- One iteration of the `while unvisited` body of `ant_tour` (src/aco.py
lines 63-79): compute the candidates, their probabilities, draw the next
city (uniformly from the neighbour list when the probability list is empty),
extend the route (splicing the external shortest path when the drawn city is
not a direct neighbour; its absence is `NetworkXNoPath`), and remove the
drawn city from the unvisited set when present. -/
def ant_step (g : Graph) (ph : Phm) (alpha beta : ℕ) (rng : ℕ → ℕ)
    (route unvisited : List Node) (current : Node) (t : ℕ) : Except Err StepRes :=
  let neighbors := g.adj current
  let possible_next := candidates g unvisited current
  match calculate_probabilities g ph alpha beta current possible_next with
  | .error e => .error e
  | .ok probs =>
    let draw : Except Err (Node × Bool) :=
      if probs.isEmpty then
        if neighbors.isEmpty then .error .indexErr
        else .ok (neighbors.getD (rng t % neighbors.length) 0, true)
      else
        match weightedChoice rng t possible_next probs with
        | .error e => .error e
        | .ok c => .ok (c, false)
    match draw with
    | .error e => .error e
    | .ok (next_city, fb) =>
      if neighbors.contains next_city then
        .ok ⟨next_city, fb, route ++ [next_city], unvisited.erase next_city, t + 1⟩
      else
        match g.sp current next_city with
        | none => .error .noPath
        | some p => .ok ⟨next_city, fb, route ++ p.tail, unvisited.erase next_city, t + 1⟩

/-- The tour-construction loop state, with the instrumentation fields
`steps` (number of completed loop iterations) and `fellBack`. -/
structure TourSt where
  route : List Node
  unvisited : List Node
  current : Node
  t : ℕ
  steps : ℕ
  fellBack : Bool
  deriving DecidableEq

/-- The `while unvisited` loop of `ant_tour`, with explicit fuel; `fuelOut`
is an artefact of the embedding, proved unreachable for sufficient fuel. -/
def tourLoop (g : Graph) (ph : Phm) (alpha beta : ℕ) (rng : ℕ → ℕ) :
    ℕ → TourSt → Except Err TourSt
  | 0, st => if st.unvisited.isEmpty then .ok st else .error .fuelOut
  | fuel + 1, st =>
    if st.unvisited.isEmpty then .ok st
    else
      match ant_step g ph alpha beta rng st.route st.unvisited st.current st.t with
      | .error e => .error e
      | .ok r =>
        tourLoop g ph alpha beta rng fuel
          ⟨r.route, r.unvisited, r.next, r.t, st.steps + 1, st.fellBack || r.fellBack⟩

/-- `ant_tour` (src/aco.py lines 56-80): empty route on an empty graph;
otherwise pick a uniformly random start node and run the loop.  The Python
set `unvisited` is modelled as the node list; removal is `List.erase`.
Returns the route together with the advanced random-stream position. -/
def ant_tour (g : Graph) (ph : Phm) (alpha beta : ℕ) (rng : ℕ → ℕ) (t : ℕ) :
    Except Err (List Node × ℕ) :=
  if g.nodes.isEmpty then .ok ([], t)
  else
    let start := g.nodes.getD (rng t % g.nodes.length) 0
    match tourLoop g ph alpha beta rng g.nodes.length
        ⟨[start], g.nodes.erase start, start, t + 1, 0, false⟩ with
    | .error e => .error e
    | .ok st => .ok (st.route, st.t)

/-- State threaded through `construct_solution`: pheromone matrix, the two
archive columns, the random-stream position, and the two history lists. -/
structure SolState where
  ph : Phm
  br : List (List Node)
  bd : List DistQ
  t : ℕ
  mins : List DistQ
  avgs : List DistQ

/-- The seeding loop of `construct_solution` (src/aco.py lines 26-29): for
each supplied route, reinforce with `pherm_rate=10` using the route's own
computed distance (`route_distance` is pure, so the two calls the source
makes coincide), appending that distance to the accumulator. -/
def seedLoop (g : Graph) (evap : ℚ) :
    List (List Node) → Phm → List DistQ → Except Err (Phm × List DistQ)
  | [], ph, acc => .ok (ph, acc)
  | r :: rs, ph, acc =>
    match update_pheromones g evap ph r (route_distance g r) 10 with
    | .error e => .error e
    | .ok ph' => seedLoop g evap rs ph' (acc ++ [route_distance g r])

/-- Spec-side restatement of the seeding reinforcement (C8): reinforce the
pheromone field once per supplied route, in order, at deposit rate 10, each
with that route's own computed distance. -/
def reinforceAll (g : Graph) (evap : ℚ) : List (List Node) → Phm → Except Err Phm
  | [], ph => .ok ph
  | r :: rs, ph =>
    match update_pheromones g evap ph r (route_distance g r) 10 with
    | .error e => .error e
    | .ok ph' => reinforceAll g evap rs ph'

/-- The inner `for _ in range(self.n_ants)` loop of `construct_solution`
(src/aco.py lines 36-49): build a tour, skip it if empty, otherwise offer it
to the archive and reinforce/evaporate the pheromone field at rate 1. -/
def antsLoop (g : Graph) (evap : ℚ) (alpha beta : ℕ) (rng : ℕ → ℕ) :
    ℕ → SolState → Except Err SolState
  | 0, s => .ok s
  | k + 1, s =>
    match ant_tour g s.ph alpha beta rng s.t with
    | .error e => .error e
    | .ok (route, t') =>
      if route.isEmpty then antsLoop g evap alpha beta rng k { s with t := t' }
      else
        let d := route_distance g route
        let ob := offer route d s.br s.bd
        match update_pheromones g evap s.ph route d 1 with
        | .error e => .error e
        | .ok ph' => antsLoop g evap alpha beta rng k ⟨ph', ob.1, ob.2, t', s.mins, s.avgs⟩

/-- The outer `for it in range(iterations)` loop of `construct_solution`
(src/aco.py lines 34-53): run the ants, invoke the observer (no effect on
the solver state), then append `min(best_distances)` and the average to the
convergence history (`min`/mean of an empty list raise). -/
def iterLoop (g : Graph) (evap : ℚ) (alpha beta n_ants : ℕ) (rng : ℕ → ℕ) :
    ℕ → SolState → Except Err SolState
  | 0, s => .ok s
  | k + 1, s =>
    match antsLoop g evap alpha beta rng n_ants s with
    | .error e => .error e
    | .ok s' =>
      if s'.bd.isEmpty then .error .valueErr
      else
        iterLoop g evap alpha beta n_ants rng k
          { s' with mins := s'.mins ++ [minList s'.bd], avgs := s'.avgs ++ [avgList s'.bd] }

/-- `construct_solution` (src/aco.py lines 20-54).  `routes = []` models both
`routes=None` and an empty list (both falsy in `if routes:`).  The archive
starts as `n_ants` copies of `([], inf)` unless seeded, in which case the
supplied routes and their computed distances are truncated to `n_ants`
entries.  Returns `(best_routes, best_distances, best_acos, avg_acos)`. -/
def construct_solution (g : Graph) (evap : ℚ) (alpha beta n_ants : ℕ)
    (rng : ℕ → ℕ) (iterations : ℕ) (routes : List (List Node)) (ph0 : Phm)
    (t0 : ℕ) : Except Err (List (List Node) × List DistQ × List DistQ × List DistQ) :=
  let seeded : Except Err (Phm × List (List Node) × List DistQ) :=
    if routes.isEmpty then .ok (ph0, List.replicate n_ants [], List.replicate n_ants ⊤)
    else
      match seedLoop g evap routes ph0 [] with
      | .error e => .error e
      | .ok (ph1, ds) => .ok (ph1, routes.take n_ants, ds.take n_ants)
  match seeded with
  | .error e => .error e
  | .ok (ph1, br0, bd0) =>
    match iterLoop g evap alpha beta n_ants rng iterations ⟨ph1, br0, bd0, t0, [], []⟩ with
    | .error e => .error e
    | .ok s => .ok (s.br, s.bd, s.mins, s.avgs)

/-- `run_aco` (src/aco.py lines 122-132): run `construct_solution` with the
fresh adjacency pheromone matrix and no seed routes; `distances[0]` raises
`IndexError` on an empty archive; raise `Exception("route not found")` when
`best_route` was never assigned, i.e. when `distances[0] < inf` fails. -/
def run_aco (g : Graph) (evap : ℚ) (alpha beta n_ants : ℕ) (rng : ℕ → ℕ)
    (iterations : ℕ) : Except Err (List Node × DistQ × List DistQ × List DistQ) :=
  match construct_solution g evap alpha beta n_ants rng iterations [] (initPheromone g) 0 with
  | .error e => .error e
  | .ok (routes, distances, mins, avgs) =>
    if distances.isEmpty then .error .indexErr
    else if distances.headD ⊤ < ⊤ then .ok (routes.headD [], distances.headD ⊤, mins, avgs)
    else .error .notFound

/-- The graph's neighbour lists mention only graph nodes (true of any
`networkx` digraph, whose edges join graph nodes). -/
def WFAdj (g : Graph) : Prop := ∀ u ∈ g.nodes, ∀ v ∈ g.adj u, v ∈ g.nodes

/-- Every existing edge leaving a graph node has strictly positive weight
(the precondition of C10). -/
def PosW (g : Graph) : Prop := ∀ u ∈ g.nodes, ∀ v ∈ g.adj u, 0 < g.w u v

/-- The external shortest-path query succeeds between any two graph nodes. -/
def SPTotal (g : Graph) : Prop := ∀ u ∈ g.nodes, ∀ v ∈ g.nodes, (g.sp u v).isSome

/-- Decidable sufficient condition for `update_pheromones` to return without
an exception on this route/distance: all pair nodes are graph nodes, and no
pair that is a graph edge is divided by a zero distance. -/
def updWillSucceed (g : Graph) (route : List Node) (dist : DistQ) : Bool :=
  (routePairs route).all fun uv =>
    decide (uv.1 ∈ g.nodes) && decide (uv.2 ∈ g.nodes) &&
      (!hasEdge g uv.1 uv.2 || decide (dist ≠ some 0))

/-- The error component of an `Except` result, usable in decidable
statements even when the success type carries functions. -/
def errOf : Except Err α → Option Err
  | .error e => some e
  | .ok _ => none

/-- Two-node graph with the single edge `0 → 1` of weight 1; used for the
C1/C4 counterexamples. -/
def gCx : Graph := ⟨[0, 1], fun u => if u = 0 then [1] else [], fun _ _ => 1, fun _ _ => none⟩

/-- A pheromone state with entries 10 at `(0,1)` and 4 at `(1,0)`. -/
def phCx : Phm := fun u v =>
  if u = 0 ∧ v = 1 then 10 else if u = 1 ∧ v = 0 then 4 else 0

/-- Three-node path `0 → 1 → 2` with unit weights; C3 witness graph. -/
def gLine : Graph :=
  ⟨[0, 1, 2], fun u => if u = 0 then [1] else if u = 1 then [2] else [],
   fun _ _ => 1, fun _ _ => none⟩

/-- Two-node graph with edges `0 → 1` (weight 2) and `1 → 0` (weight 1) and a
total shortest-path oracle; used for the C6 counterexample and the C9
witness. -/
def gTwo : Graph :=
  ⟨[0, 1], fun u => if u = 0 then [1] else if u = 1 then [0] else [],
   fun u v => if u = 0 ∧ v = 1 then 2 else if u = 1 ∧ v = 0 then 1 else 0,
   fun u v => some [u, v]⟩

/-- The random stream driving the C6 counterexample run: stream position 4
(the start-node draw of the third tour) selects index 1, everything else
index 0. -/
def rngC6 : ℕ → ℕ := fun t => if t = 4 then 1 else 0

/-- The all-zeros random stream. -/
def rng0 : ℕ → ℕ := fun _ => 0

/-- Three-node graph in which node 0 has out-neighbours 1 and 2 (unit
weights); with an all-zero pheromone matrix every selection weight is zero;
C7 counterexample graph. -/
def gZW : Graph :=
  ⟨[0, 1, 2], fun u => if u = 0 then [1, 2] else [], fun _ _ => 1, fun _ _ => none⟩

/-- The all-zero pheromone matrix. -/
def phZ : Phm := fun _ _ => 0

/-- Two-node graph whose single edge `0 → 1` has weight 0: the zero-weight
edge that reaches the division-by-zero error (C9/C10 counterexamples). -/
def gBad : Graph := ⟨[0, 1], fun u => if u = 0 then [1] else [], fun _ _ => 0, fun _ _ => none⟩

/-- The one-node graph. -/
def gOne : Graph := ⟨[0], fun _ => [], fun _ _ => 0, fun _ _ => none⟩

theorem route_distance_pair (g : Graph) (u v : Node) :
    route_distance g [u, v] = if hasEdge g u v then ((g.w u v : ℚ) : DistQ) else ⊤ := by
  simp [route_distance]

/-- C3: `route_distance` sums the weights of the directed edges between
consecutive route nodes from the first to the last element only (no
wrap-around edge), returns infinity whenever some consecutive pair is not an
edge of the graph, and is a pure function of the graph's edge structure and
the route. -/
theorem route_distance_spec (g : Graph) (r : List Node) :
    ((∀ p ∈ r.zip r.tail, hasEdge g p.1 p.2 = true) →
      route_distance g r = ((pathWeight g r : ℚ) : DistQ)) ∧
    ((∃ p ∈ r.zip r.tail, hasEdge g p.1 p.2 = false) → route_distance g r = ⊤) ∧
    (∀ g' : Graph, g'.adj = g.adj → g'.w = g.w →
      route_distance g' r = route_distance g r) := by
  induction r with
  | nil =>
    exact ⟨fun _ => rfl, fun h => by simp at h, fun g' _ _ => rfl⟩
  | cons u rest ih =>
    cases rest with
    | nil =>
      exact ⟨fun _ => rfl, fun h => by simp at h, fun g' _ _ => rfl⟩
    | cons v rest' =>
      obtain ⟨ih1, ih2, ih3⟩ := ih
      refine ⟨fun h => ?_, fun h => ?_, fun g' h1 h2 => ?_⟩
      · have he : hasEdge g u v = true := h (u, v) (by simp)
        have hrest := ih1 fun p hp => h p (by simp only [List.tail_cons,
          List.zip_cons_cons, List.mem_cons]; exact Or.inr (by simpa using hp))
        simp only [route_distance, pathWeight, he, if_true, hrest]
        rw [← WithTop.coe_add]
      · obtain ⟨p, hp, he⟩ := h
        simp only [List.tail_cons, List.zip_cons_cons, List.mem_cons] at hp
        rcases hp with hp | hp
        · subst hp
          simp only [route_distance, he, Bool.false_eq_true, if_false]
        · have := ih2 ⟨p, by simpa using hp, he⟩
          simp only [route_distance, this]
          split <;> simp
      · simp only [route_distance, hasEdge, h1, h2, ih3 g' h1 h2]

/-- Witness for C3 on the concrete path graph `0 → 1 → 2`. -/
theorem route_distance_spec_w : route_distance gLine [0, 1, 2] = ((2 : ℚ) : DistQ) :=
  ((route_distance_spec gLine [0, 1, 2]).1 (by decide)).trans (by decide)

theorem depFold_char (g : Graph) (rate : ℚ) (dist : DistQ) (dep : ℚ)
    (hdep : depositE rate dist = .ok dep) :
    ∀ (ps : List (Node × Node)) (p : Phm),
      (∀ uv ∈ ps, uv.1 ∈ g.nodes ∧ uv.2 ∈ g.nodes) →
      ∃ p', ps.foldlM (depStep g rate dist) p = .ok p' ∧
        ∀ u v, p' u v = p u v +
          (((ps.filter fun uv => hasEdge g uv.1 uv.2).count (u, v) : ℕ) : ℚ) * dep := by
  intro ps
  induction ps with
  | nil => exact fun p _ => ⟨p, rfl, by simp⟩
  | cons uv rest ih =>
    obtain ⟨a, b⟩ := uv
    intro p hp
    obtain ⟨h1, h2⟩ := hp (a, b) (List.mem_cons_self _ _)
    by_cases he : hasEdge g a b
    · obtain ⟨p', hfold, hchar⟩ :=
        ih (fun x y => if x = a ∧ y = b then p x y + dep else p x y)
          (fun x hx => hp x (List.mem_cons_of_mem _ hx))
      refine ⟨p', ?_, ?_⟩
      · simpa [List.foldlM_cons, depStep, h1, h2, he, hdep] using hfold
      · intro u v
        rw [hchar u v]
        by_cases huv : u = a ∧ v = b
        · obtain ⟨rfl, rfl⟩ := huv
          rw [if_pos ⟨rfl, rfl⟩, List.filter_cons_of_pos (by simpa using he),
            List.count_cons_self]
          push_cast
          ring
        · have hne : ((u, v) : Node × Node) ≠ (a, b) := by
            intro hcon
            exact huv ⟨congrArg Prod.fst hcon, congrArg Prod.snd hcon⟩
          rw [if_neg huv, List.filter_cons_of_pos (by simpa using he),
            List.count_cons_of_ne hne]
    · obtain ⟨p', hfold, hchar⟩ := ih p (fun x hx => hp x (List.mem_cons_of_mem _ hx))
      refine ⟨p', ?_, ?_⟩
      · simpa [List.foldlM_cons, depStep, h1, h2, he] using hfold
      · intro u v
        rw [hchar u v]
        rw [List.filter_cons_of_neg (by simpa using he)]

theorem routePairs_nodes (g : Graph) (route : List Node)
    (h1 : ∀ x ∈ route, x ∈ g.nodes) :
    ∀ uv ∈ routePairs route, uv.1 ∈ g.nodes ∧ uv.2 ∈ g.nodes := by
  intro uv huv
  simp only [routePairs, List.mem_map, List.mem_range] at huv
  obtain ⟨i, hi, rfl⟩ := huv
  have hlen : 0 < route.length := lt_of_le_of_lt (Nat.zero_le i) hi
  constructor
  · exact h1 _ (by rw [List.getD_eq_getElem route 0 hi]; exact route.getElem_mem hi)
  · have hmod : (i + 1) % route.length < route.length := Nat.mod_lt _ hlen
    exact h1 _ (by rw [List.getD_eq_getElem route 0 hmod]; exact route.getElem_mem hmod)

/-- Counterexample to C1 (the claim as stated): for the nonempty route
`[0, 1]` and the positive finite distance 1, the route-edge entry `(0, 1)`
falls from 10 to 6 (so it is not `≥` its pre-call value), and the off-route
entry `(1, 0)` changes from 4 to 2 (so it is not unchanged): the source
multiplies the whole matrix by the evaporation factor inside
`update_pheromones` before depositing. -/
theorem C1_counterexample :
    ((update_pheromones gCx (1/2) phCx [0, 1] ((1 : ℚ) : DistQ) 1).toOption.map
        fun p => (p 0 1, p 1 0)) = some (6, 2) ∧
    phCx 0 1 = 10 ∧ phCx 1 0 = 4 ∧
    ((0 : Node), (1 : Node)) ∈ routeEdges gCx [0, 1] ∧
    ((1 : Node), (0 : Node)) ∉ routeEdges gCx [0, 1] ∧
    ¬ ((10 : ℚ) ≤ 6) ∧ (2 : ℚ) ≠ 4 := by decide

/-- C1, amended: for every nonempty route over graph nodes and every
positive finite distance and positive deposit rate, `update_pheromones`
returns without error; every entry on an edge of the route (wrap-around
pairs included) ends at or above `evaporation ×` its pre-call value, and
every other entry equals exactly `evaporation ×` its pre-call value (the
evaporation happens inside the call, not only via a separate step). -/
theorem update_pheromones_amended (g : Graph) (evap : ℚ) (ph : Phm)
    (route : List Node) (q rate : ℚ) (h0 : route ≠ [])
    (h1 : ∀ x ∈ route, x ∈ g.nodes) (h2 : 0 < q) (h3 : 0 < rate) :
    ∃ ph', update_pheromones g evap ph route ((q : ℚ) : DistQ) rate = .ok ph' ∧
      (∀ u v, (u, v) ∈ routeEdges g route → evap * ph u v ≤ ph' u v) ∧
      (∀ u v, (u, v) ∉ routeEdges g route → ph' u v = evap * ph u v) := by
  have hdep : depositE rate ((q : ℚ) : DistQ) = .ok (rate / q) := by
    simp [depositE, ne_of_gt h2]
  obtain ⟨p', hf, hc⟩ := depFold_char g rate _ (rate / q) hdep (routePairs route)
    (fun u v => evap * ph u v) (routePairs_nodes g route h1)
  have hc' : ∀ u v, p' u v = evap * ph u v +
      (((routeEdges g route).count (u, v) : ℕ) : ℚ) * (rate / q) := hc
  refine ⟨p', ?_, fun u v hmem => ?_, fun u v hmem => ?_⟩
  · rw [update_pheromones, if_neg (by simpa using h0)]
    exact hf
  · rw [hc' u v]
    have : (0 : ℚ) ≤ (((routeEdges g route).count (u, v) : ℕ) : ℚ) * (rate / q) := by
      have hdpos : 0 < rate / q := div_pos h3 h2
      positivity
    linarith
  · rw [hc' u v]
    rw [show (routeEdges g route).count (u, v) = 0 from List.count_eq_zero.2 hmem]
    simp

/-- Witness for the amended C1 at the concrete input of the counterexample. -/
theorem update_pheromones_amended_w :
    ∃ ph', update_pheromones gCx (1/2) phCx [0, 1] ((1 : ℚ) : DistQ) 1 = .ok ph' ∧
      (∀ u v, (u, v) ∈ routeEdges gCx [0, 1] → (1/2) * phCx u v ≤ ph' u v) ∧
      (∀ u v, (u, v) ∉ routeEdges gCx [0, 1] → ph' u v = (1/2) * phCx u v) :=
  update_pheromones_amended gCx (1/2) phCx [0, 1] 1 1 (by decide)
    (by decide) (by decide) (by decide)

theorem depFold_zero_err (g : Graph) (rate : ℚ) (ps : List (Node × Node)) (p : Phm)
    (hn : ∀ uv ∈ ps, uv.1 ∈ g.nodes ∧ uv.2 ∈ g.nodes)
    (he : ∃ uv ∈ ps, hasEdge g uv.1 uv.2 = true) :
    ps.foldlM (depStep g rate ((0 : ℚ) : DistQ)) p = .error .zeroDiv := by
  induction ps generalizing p with
  | nil => simp at he
  | cons uv rest ih =>
    obtain ⟨a, b⟩ := uv
    obtain ⟨h1, h2⟩ := hn (a, b) (List.mem_cons_self _ _)
    by_cases hedge : hasEdge g a b
    · rw [List.foldlM_cons]
      simp only [depStep, h1, h2, if_true, hedge, depositE, if_pos rfl]
      rfl
    · obtain ⟨x, hx, hxe⟩ := he
      rcases List.mem_cons.1 hx with rfl | hx
      · exact absurd hxe (by simpa using hedge)
      · rw [List.foldlM_cons]
        simp only [depStep, h1, h2, if_true, hedge, Bool.false_eq_true, if_false]
        exact ih p (fun y hy => hn y (List.mem_cons_of_mem _ hy)) ⟨x, hx, hxe⟩

/-- Counterexample to C4 (the claim as stated): with the nonempty route
`[0, 1]`, passing the infinite distance does not skip the update (the whole
matrix is still multiplied by the evaporation factor: entry `(1, 0)` changes
from 4 to 2), and passing the zero distance raises a `ZeroDivisionError`
instead of being skipped silently: the source has no guard on `distance`. -/
theorem C4_counterexample :
    ((update_pheromones gCx (1/2) phCx [0, 1] ⊤ 1).toOption.map fun p => p 1 0)
      = some 2 ∧ phCx 1 0 = 4 ∧ (2 : ℚ) ≠ 4 ∧
    errOf (update_pheromones gCx (1/2) phCx [0, 1] ((0 : ℚ) : DistQ) 1)
      = some .zeroDiv := by
  decide

/-- C4, amended: `update_pheromones` has no guard on the caller-supplied
distance.  For a nonempty route over graph nodes: with an infinite distance
the call still multiplies every entry by the evaporation factor (the
deposits are `rate / inf = 0`); with a zero distance it raises
`ZeroDivisionError` as soon as some wrap-around pair of the route is a graph
edge. -/
theorem update_pheromones_no_guard (g : Graph) (evap : ℚ) (ph : Phm)
    (route : List Node) (rate : ℚ) (h0 : route ≠ [])
    (h1 : ∀ x ∈ route, x ∈ g.nodes) :
    (∃ ph', update_pheromones g evap ph route ⊤ rate = .ok ph' ∧
        ∀ u v, ph' u v = evap * ph u v) ∧
    ((∃ uv ∈ routePairs route, hasEdge g uv.1 uv.2 = true) →
      update_pheromones g evap ph route ((0 : ℚ) : DistQ) rate = .error .zeroDiv) := by
  constructor
  · have hdep : depositE rate ⊤ = .ok 0 := rfl
    obtain ⟨p', hf, hc⟩ := depFold_char g rate ⊤ 0 hdep (routePairs route)
      (fun u v => evap * ph u v) (routePairs_nodes g route h1)
    have hc' : ∀ u v, p' u v = evap * ph u v +
        (((routeEdges g route).count (u, v) : ℕ) : ℚ) * 0 := hc
    refine ⟨p', ?_, fun u v => ?_⟩
    · rw [update_pheromones, if_neg (by simpa using h0)]
      exact hf
    · rw [hc' u v]; ring
  · intro he
    rw [update_pheromones, if_neg (by simpa using h0)]
    exact depFold_zero_err g rate (routePairs route)
      (fun u v => evap * ph u v) (routePairs_nodes g route h1) he

/-- Witness for the amended C4 at a concrete input: the zero-distance call
raises the division error. -/
theorem update_pheromones_no_guard_w :
    update_pheromones gCx (1/2) phCx [0, 1] ((0 : ℚ) : DistQ) 1 = .error .zeroDiv :=
  (update_pheromones_no_guard gCx (1/2) phCx [0, 1] 1 (by decide) (by decide)).2
    (by decide)

theorem sorted_replicate_top (n : ℕ) :
    List.Sorted (· ≤ ·) (List.replicate n (⊤ : DistQ)) := by
  induction n with
  | zero => exact List.sorted_nil
  | succ n ih =>
    rw [List.replicate_succ]
    exact List.sorted_cons.2 ⟨fun b hb => (List.eq_of_mem_replicate hb).ge, ih⟩

theorem offerShift_length (l : List α) (i : ℕ) (x : α) (h : i < l.length) :
    (offerShift l i x).length = l.length := by
  simp only [offerShift, List.length_append, List.length_take, List.length_cons,
    List.length_dropLast, List.length_drop]
  omega

theorem offerLoop_length (route : List Node) (d : DistQ) :
    ∀ (fuel i : ℕ) (br : List (List Node)) (bd : List DistQ),
      i + fuel ≤ bd.length → br.length = bd.length →
      (offerLoop route d i fuel (br, bd)).1.length = bd.length ∧
      (offerLoop route d i fuel (br, bd)).2.length = bd.length := by
  intro fuel
  induction fuel with
  | zero => intro i br bd _ h2; exact ⟨h2, rfl⟩
  | succ fuel ih =>
    intro i br bd h1 h2
    have hi : i < bd.length := by omega
    simp only [offerLoop]
    by_cases hc : d < bd.getD i ⊤
    · rw [if_pos hc]
      have h3 := offerShift_length bd i d hi
      have h4 := offerShift_length br i route (by omega)
      have h5 := ih (i + 1) (offerShift br i route) (offerShift bd i d)
        (by omega) (by omega)
      omega
    · rw [if_neg hc]
      exact ih (i + 1) br bd (by omega) h2

theorem offerLoop_snd_eq (route : List Node) (d : DistQ) :
    ∀ (fuel i : ℕ) (br : List (List Node)) (bd : List DistQ),
      i + fuel ≤ bd.length →
      (offerLoop route d i fuel (br, bd)).2 = bd.take i ++ tl d fuel (bd.drop i) := by
  intro fuel
  induction fuel with
  | zero =>
    intro i br bd h
    simp [offerLoop, tl]
  | succ fuel ih =>
    intro i br bd h
    have hi : i < bd.length := by omega
    have hdrop : bd.drop i = bd[i] :: bd.drop (i + 1) := List.drop_eq_getElem_cons hi
    have hgetD : bd.getD i ⊤ = bd[i] := List.getD_eq_getElem bd ⊤ hi
    have htklen : (bd.take i).length = i := by simp; omega
    simp only [offerLoop]
    by_cases hc : d < bd.getD i ⊤
    · rw [if_pos hc]
      have hlen : (offerShift bd i d).length = bd.length := offerShift_length bd i d hi
      rw [ih (i + 1) (offerShift br i route) (offerShift bd i d) (by omega)]
      have ha : (offerShift bd i d).take (i + 1) = bd.take i ++ [d] := by
        rw [offerShift, List.take_append_eq_append_take, htklen,
          List.take_of_length_le (by omega),
          show i + 1 - i = 1 from by omega]
        rfl
      have hb : (offerShift bd i d).drop (i + 1) = (bd.drop i).dropLast := by
        rw [offerShift, List.drop_append_eq_append_drop, htklen,
          List.drop_eq_nil_of_le (by omega),
          show i + 1 - i = 1 from by omega]
        rfl
      rw [ha, hb, hdrop, tl, if_pos (hgetD ▸ hc)]
      rw [← hdrop, ← List.append_cons]
    · rw [if_neg hc]
      rw [ih (i + 1) br bd (by omega)]
      rw [hdrop, tl, if_neg (hgetD ▸ hc)]
      rw [List.take_succ]
      have : bd[i]?.toList = [bd[i]] := by
        rw [List.getElem?_eq_getElem hi]
        rfl
      rw [this]
      exact (List.append_cons _ _ _).symm

theorem tl_mem (d : DistQ) :
    ∀ (fuel : ℕ) (s : List DistQ), ∀ y ∈ tl d fuel s, y = d ∨ y ∈ s := by
  intro fuel
  induction fuel with
  | zero => intro s y hy; exact Or.inr hy
  | succ fuel ih =>
    intro s y hy
    cases s with
    | nil => simp [tl] at hy
    | cons x s' =>
      rw [tl] at hy
      by_cases hc : d < x
      · rw [if_pos hc] at hy
        rcases List.mem_cons.1 hy with rfl | hy
        · exact Or.inl rfl
        · rcases ih _ y hy with h | h
          · exact Or.inl h
          · exact Or.inr ((List.dropLast_sublist _).mem h)
      · rw [if_neg hc] at hy
        rcases List.mem_cons.1 hy with rfl | hy
        · exact Or.inr (List.mem_cons_self _ _)
        · rcases ih _ y hy with h | h
          · exact Or.inl h
          · exact Or.inr (List.mem_cons_of_mem _ h)

theorem tl_sorted (d : DistQ) :
    ∀ (fuel : ℕ) (s : List DistQ), List.Sorted (· ≤ ·) s →
      List.Sorted (· ≤ ·) (tl d fuel s) := by
  intro fuel
  induction fuel with
  | zero => exact fun s hs => hs
  | succ fuel ih =>
    intro s hs
    cases s with
    | nil => simp [tl]
    | cons x s' =>
      rw [tl]
      obtain ⟨hx, hs'⟩ := List.sorted_cons.1 hs
      by_cases hc : d < x
      · rw [if_pos hc]
        refine List.sorted_cons.2 ⟨?_, ih _ (hs.sublist (List.dropLast_sublist _))⟩
        intro b hb
        rcases tl_mem d fuel _ b hb with rfl | hb
        · exact le_refl b
        · rcases List.mem_cons.1 ((List.dropLast_sublist (x :: s')).mem hb) with rfl | hb
          · exact hc.le
          · exact hc.le.trans (hx b hb)
      · rw [if_neg hc]
        refine List.sorted_cons.2 ⟨?_, ih _ hs'⟩
        intro b hb
        rcases tl_mem d fuel _ b hb with rfl | hb
        · exact not_lt.1 hc
        · exact hx b hb

theorem offer_snd_eq (route : List Node) (d : DistQ) (br : List (List Node))
    (bd : List DistQ) : (offer route d br bd).2 = tl d bd.length bd := by
  rw [offer, offerLoop_snd_eq route d bd.length 0 br bd (by omega)]
  simp

theorem offer_sorted (route : List Node) (d : DistQ) (br : List (List Node))
    (bd : List DistQ) (hs : List.Sorted (· ≤ ·) bd) :
    List.Sorted (· ≤ ·) (offer route d br bd).2 := by
  rw [offer_snd_eq]
  exact tl_sorted d bd.length bd hs

theorem offer_length (route : List Node) (d : DistQ) (br : List (List Node))
    (bd : List DistQ) (h : br.length = bd.length) :
    (offer route d br bd).1.length = bd.length ∧
    (offer route d br bd).2.length = bd.length :=
  offerLoop_length route d bd.length 0 br bd (by omega) h

/-- C2: starting from the initial archive of `n` entries of `([], inf)`,
after any sequence of `Offer` operations (the archive-insertion loop run
once per offered route/distance pair) both archive columns still have
exactly `n` entries (so the length never exceeds the ant count) and the
distance column is sorted in ascending order. -/
theorem offer_archive_invariant (n : ℕ) (offers : List (List Node × DistQ)) :
    (applyOffers offers (initArchive n)).1.length = n ∧
    (applyOffers offers (initArchive n)).2.length = n ∧
    List.Sorted (· ≤ ·) (applyOffers offers (initArchive n)).2 := by
  suffices h : ∀ (s : List (List Node) × List DistQ),
      s.1.length = n → s.2.length = n → List.Sorted (· ≤ ·) s.2 →
      (applyOffers offers s).1.length = n ∧ (applyOffers offers s).2.length = n ∧
      List.Sorted (· ≤ ·) (applyOffers offers s).2 by
    exact h (initArchive n) (by simp [initArchive]) (by simp [initArchive])
      (sorted_replicate_top n)
  induction offers with
  | nil => exact fun s h1 h2 h3 => ⟨h1, h2, h3⟩
  | cons o rest ih =>
    intro s h1 h2 h3
    have hl := offer_length o.1 o.2 s.1 s.2 (h1.trans h2.symm)
    have hs := offer_sorted o.1 o.2 s.1 s.2 h3
    exact ih _ (hl.1.trans h2) (hl.2.trans h2) hs

theorem invDist_pair_ok (g : Graph) (current c : Node)
    (h : hasEdge g current c = true → g.w current c ≠ 0) :
    ∃ r, invDist (route_distance g [current, c]) = .ok r := by
  rw [route_distance_pair]
  by_cases he : hasEdge g current c
  · rw [if_pos he]
    exact ⟨1 / g.w current c, by simp [invDist, h he]⟩
  · rw [if_neg he]
    exact ⟨0, rfl⟩

theorem attraction_list_ok (g : Graph) (ph : Phm) (alpha beta : ℕ) (current : Node) :
    ∀ l : List Node, (∀ c ∈ l, c ∈ g.nodes) →
      (∀ c ∈ l, hasEdge g current c = true → g.w current c ≠ 0) →
      ∃ ws, attraction_list g ph alpha beta current l = .ok ws := by
  intro l
  induction l with
  | nil => exact fun _ _ => ⟨[], rfl⟩
  | cons c rest ih =>
    intro h1 h2
    obtain ⟨ws, hws⟩ := ih (fun x hx => h1 x (List.mem_cons_of_mem _ hx))
      (fun x hx => h2 x (List.mem_cons_of_mem _ hx))
    obtain ⟨r, hr⟩ := invDist_pair_ok g current c (h2 c (List.mem_cons_self _ _))
    exact ⟨_, by rw [attraction_list, if_pos (h1 c (List.mem_cons_self _ _)), hr, hws]⟩

theorem attraction_list_length (g : Graph) (ph : Phm) (alpha beta : ℕ) (current : Node) :
    ∀ (l : List Node) (ws : List ℚ),
      attraction_list g ph alpha beta current l = .ok ws → ws.length = l.length := by
  intro l
  induction l with
  | nil =>
    intro ws h
    rw [attraction_list] at h
    cases h
    rfl
  | cons c rest ih =>
    intro ws h
    rw [attraction_list] at h
    by_cases hc : c ∈ g.nodes
    · rw [if_pos hc] at h
      cases hinv : invDist (route_distance g [current, c]) with
      | error e => rw [hinv] at h; cases h
      | ok r =>
        rw [hinv] at h
        cases hrest : attraction_list g ph alpha beta current rest with
        | error e => rw [hrest] at h; cases h
        | ok hs =>
          rw [hrest] at h
          cases h
          simp [ih hs hrest]
    · rw [if_neg hc] at h
      cases h

theorem attraction_list_zero_err (g : Graph) (ph : Phm) (alpha beta : ℕ) (current : Node) :
    ∀ l : List Node, (∀ c ∈ l, c ∈ g.nodes) →
      (∃ c ∈ l, hasEdge g current c = true ∧ g.w current c = 0) →
      attraction_list g ph alpha beta current l = .error .zeroDiv := by
  intro l
  induction l with
  | nil => intro _ h; simp at h
  | cons c rest ih =>
    intro h1 he
    have hc := h1 c (List.mem_cons_self _ _)
    by_cases htrig : hasEdge g current c = true ∧ g.w current c = 0
    · rw [attraction_list, if_pos hc]
      have : invDist (route_distance g [current, c]) = .error .zeroDiv := by
        rw [route_distance_pair, if_pos htrig.1]
        simp [invDist, htrig.2]
      rw [this]
    · obtain ⟨x, hx, hxe⟩ := he
      rcases List.mem_cons.1 hx with rfl | hx
      · exact absurd hxe htrig
      · obtain ⟨r, hr⟩ := invDist_pair_ok g current c fun hedge =>
          fun hw => htrig ⟨hedge, hw⟩
        rw [attraction_list, if_pos hc, hr,
          ih (fun y hy => h1 y (List.mem_cons_of_mem _ hy)) ⟨x, hx, hxe⟩]

/-- C10: the selection weight divides by the candidate's single-edge
distance.  When every existing edge out of the current node has strictly
positive weight, `1/distance` is well defined at every candidate
(`1/inf = 0`) and `calculate_probabilities` returns without reaching the
division error; when instead some candidate's direct edge has weight 0, the
computation reaches the `ZeroDivisionError`. -/
theorem calculate_probabilities_div_safety (g : Graph) (ph : Phm)
    (alpha beta : ℕ) (current : Node) (l : List Node)
    (hcur : current ∈ g.nodes) (hl : ∀ c ∈ l, c ∈ g.nodes) :
    invDist ⊤ = .ok 0 ∧
    ((∀ v ∈ g.adj current, 0 < g.w current v) →
      ∃ ps, calculate_probabilities g ph alpha beta current l = .ok ps) ∧
    ((∃ c ∈ l, hasEdge g current c = true ∧ g.w current c = 0) →
      calculate_probabilities g ph alpha beta current l = .error .zeroDiv) := by
  refine ⟨rfl, fun hpos => ?_, fun hzero => ?_⟩
  · by_cases hle : l.isEmpty
    · exact ⟨[], by rw [calculate_probabilities, if_pos hle]⟩
    · obtain ⟨ws, hws⟩ := attraction_list_ok g ph alpha beta current l hl
        (fun c _ he => ne_of_gt (hpos c (by simpa [hasEdge] using he)))
      by_cases hz : ws.sum = 0
      · refine ⟨List.replicate l.length ((1 : ℚ) / l.length), ?_⟩
        rw [calculate_probabilities, if_neg hle, if_pos hcur, hws]
        exact if_pos hz
      · refine ⟨ws.map fun p => p / ws.sum, ?_⟩
        rw [calculate_probabilities, if_neg hle, if_pos hcur, hws]
        exact if_neg hz
  · have hle : ¬ l.isEmpty := by
      obtain ⟨c, hc, -⟩ := id hzero
      cases l
      · simp at hc
      · simp
    rw [calculate_probabilities, if_neg hle, if_pos hcur,
      attraction_list_zero_err g ph alpha beta current l hl hzero]

/-- Witness for C10 on the two-node graph with positive weights. -/
theorem calculate_probabilities_div_safety_w :
    ∃ ps, calculate_probabilities gTwo (initPheromone gTwo) 1 2 0 [1] = .ok ps :=
  (calculate_probabilities_div_safety gTwo (initPheromone gTwo) 1 2 0 [1]
    (by decide) (by decide)).2.1 (by decide)

theorem exists_pos_of_sum_pos (l : List ℚ) (h : 0 < l.sum) : ∃ x ∈ l, 0 < x := by
  induction l with
  | nil => simp at h
  | cons x xs ih =>
    by_cases hx : 0 < x
    · exact ⟨x, List.mem_cons_self _ _, hx⟩
    · rw [List.sum_cons] at h
      have hxs : 0 < xs.sum := by
        have := not_lt.1 hx
        linarith
      obtain ⟨y, hy, hy2⟩ := ih hxs
      exact ⟨y, List.mem_cons_of_mem _ hy, hy2⟩

theorem sum_map_div (l : List ℚ) (c : ℚ) : (l.map fun p => p / c).sum = l.sum / c := by
  induction l with
  | nil => simp
  | cons x xs ih => simp [ih, add_div]

theorem calculate_probabilities_of_attr (g : Graph) (ph : Phm) (alpha beta : ℕ)
    (current : Node) (l : List Node) (hne : ¬ l.isEmpty = true)
    (hcur : current ∈ g.nodes) (ws : List ℚ)
    (hws : attraction_list g ph alpha beta current l = .ok ws) :
    calculate_probabilities g ph alpha beta current l =
      if ws.sum = 0 then .ok (List.replicate l.length ((1 : ℚ) / l.length))
      else .ok (ws.map fun p => p / ws.sum) := by
  rw [calculate_probabilities, if_neg hne, if_pos hcur, hws]

theorem calculate_probabilities_of_attr_err (g : Graph) (ph : Phm) (alpha beta : ℕ)
    (current : Node) (l : List Node) (hne : ¬ l.isEmpty = true)
    (hcur : current ∈ g.nodes) (e : Err)
    (hws : attraction_list g ph alpha beta current l = .error e) :
    calculate_probabilities g ph alpha beta current l = .error e := by
  rw [calculate_probabilities, if_neg hne, if_pos hcur, hws]

theorem calculate_probabilities_spec (g : Graph) (ph : Phm) (alpha beta : ℕ)
    (current : Node) (l : List Node) (hne : ¬ l.isEmpty = true)
    (hcur : current ∈ g.nodes) (ps : List ℚ)
    (hok : calculate_probabilities g ph alpha beta current l = .ok ps) :
    ps.length = l.length ∧ ps.sum = 1 := by
  have hlpos : l.length ≠ 0 := by
    cases l
    · simp at hne
    · simp
  have hlq : ((l.length : ℕ) : ℚ) ≠ 0 := Nat.cast_ne_zero.2 hlpos
  cases hws : attraction_list g ph alpha beta current l with
  | error e =>
    rw [calculate_probabilities_of_attr_err g ph alpha beta current l hne hcur e hws]
      at hok
    cases hok
  | ok ws =>
    rw [calculate_probabilities_of_attr g ph alpha beta current l hne hcur ws hws]
      at hok
    by_cases hz : ws.sum = 0
    · rw [if_pos hz] at hok
      cases hok
      refine ⟨by simp, ?_⟩
      rw [List.sum_replicate, nsmul_eq_mul, mul_one_div, div_self hlq]
    · rw [if_neg hz] at hok
      cases hok
      refine ⟨?_, ?_⟩
      · rw [List.length_map]
        exact attraction_list_length g ph alpha beta current l ws hws
      · rw [sum_map_div, div_self hz]

theorem weightedChoice_mem (rng : ℕ → ℕ) (t : ℕ) (pop : List Node) (ws : List ℚ)
    (hlen : ws.length = pop.length) (hsum : ws.sum = 1) :
    ∃ c, weightedChoice rng t pop ws = .ok c ∧ c ∈ pop := by
  have hpos : ¬ ws.sum ≤ 0 := by rw [hsum]; norm_num
  obtain ⟨y, hy, hy0⟩ := exists_pos_of_sum_pos ws (by rw [hsum]; norm_num)
  obtain ⟨i, hi, hyi⟩ := List.mem_iff_getElem.1 hy
  have hip : i < pop.length := by omega
  have hizip : i < (pop.zip ws).length := by
    rw [List.length_zip]
    omega
  have hpairmem : (pop[i], ws[i]) ∈ pop.zip ws := by
    rw [← List.getElem_zip]
    exact List.getElem_mem hizip
  have hsuppmem : (pop[i], ws[i]) ∈ suppOf pop ws := by
    rw [suppOf]
    refine List.mem_filter.2 ⟨hpairmem, ?_⟩
    simp only [decide_eq_true_eq]
    rw [hyi]
    exact hy0
  have hsupplen : 0 < (suppOf pop ws).length :=
    List.length_pos.2 (List.ne_nil_of_mem hsuppmem)
  have hidx : rng t % (suppOf pop ws).length < (suppOf pop ws).length :=
    Nat.mod_lt _ hsupplen
  refine ⟨_, by rw [weightedChoice, if_neg hpos], ?_⟩
  rw [List.getD_eq_getElem _ (0, 0) hidx]
  have hmem : (suppOf pop ws)[rng t % (suppOf pop ws).length] ∈ suppOf pop ws :=
    List.getElem_mem hidx
  have hzipmem : (suppOf pop ws)[rng t % (suppOf pop ws).length] ∈ pop.zip ws :=
    (List.mem_filter.1 hmem).1
  exact (List.of_mem_zip hzipmem).1

theorem candidates_ne_nil (g : Graph) (unvisited : List Node) (current : Node)
    (hnz : unvisited ≠ []) : candidates g unvisited current ≠ [] := by
  rw [candidates]
  by_cases h : ((g.adj current).filter fun n => unvisited.contains n).isEmpty
  · rw [if_pos h]
    exact hnz
  · rw [if_neg h]
    intro hcon
    rw [hcon] at h
    exact h rfl

theorem candidates_sub_unvisited (g : Graph) (unvisited : List Node) (current : Node) :
    ∀ c ∈ candidates g unvisited current, c ∈ unvisited := by
  intro c hc
  rw [candidates] at hc
  by_cases h : ((g.adj current).filter fun n => unvisited.contains n).isEmpty
  · rw [if_pos h] at hc
    exact hc
  · rw [if_neg h] at hc
    have := (List.mem_filter.1 hc).2
    simpa using this

theorem candidates_sub_nodes (g : Graph) (unvisited : List Node) (current : Node)
    (hwf : WFAdj g) (hcur : current ∈ g.nodes)
    (hunv : ∀ x ∈ unvisited, x ∈ g.nodes) :
    ∀ c ∈ candidates g unvisited current, c ∈ g.nodes := by
  intro c hc
  rw [candidates] at hc
  by_cases h : ((g.adj current).filter fun n => unvisited.contains n).isEmpty
  · rw [if_pos h] at hc
    exact hunv c hc
  · rw [if_neg h] at hc
    exact hwf current hcur c (List.mem_filter.1 hc).1

theorem ant_step_of_probs (g : Graph) (ph : Phm) (alpha beta : ℕ) (rng : ℕ → ℕ)
    (route unvisited : List Node) (current : Node) (t : ℕ) (ps : List ℚ)
    (hcalc : calculate_probabilities g ph alpha beta current
      (candidates g unvisited current) = .ok ps)
    (hlen : ps.length = (candidates g unvisited current).length)
    (hsum : ps.sum = 1)
    (hcne : candidates g unvisited current ≠ [])
    (hsp : ∀ v ∈ candidates g unvisited current,
      hasEdge g current v = false → (g.sp current v).isSome) :
    ∃ r, ant_step g ph alpha beta rng route unvisited current t = .ok r ∧
      r.fellBack = false ∧ r.next ∈ candidates g unvisited current ∧
      r.unvisited = unvisited.erase r.next ∧ r.t = t + 1 ∧
      (r.route = route ++ [r.next] ∨
        ∃ p, g.sp current r.next = some p ∧ r.route = route ++ p.tail) := by
  have hpne : ¬ ps.isEmpty = true := by
    cases hps : ps
    · rw [hps] at hlen
      exact absurd (List.length_eq_zero.1 hlen.symm) hcne
    · simp
  obtain ⟨c, hcw, hcmem⟩ := weightedChoice_mem rng t (candidates g unvisited current)
    ps hlen hsum
  by_cases hnb : (g.adj current).contains c
  · refine ⟨⟨c, false, route ++ [c], unvisited.erase c, t + 1⟩, ?_, rfl, hcmem, rfl,
      rfl, Or.inl rfl⟩
    rw [ant_step]
    rw [hcalc]
    simp only [hpne, Bool.false_eq_true, if_false, hcw, hnb, if_true]
  · have hedge : hasEdge g current c = false := by
      rw [hasEdge]
      exact Bool.not_eq_true _ ▸ (by simpa using hnb)
    obtain ⟨p, hp⟩ := Option.isSome_iff_exists.1 (hsp c hcmem hedge)
    refine ⟨⟨c, false, route ++ p.tail, unvisited.erase c, t + 1⟩, ?_, rfl, hcmem, rfl,
      rfl, Or.inr ⟨p, hp, rfl⟩⟩
    rw [ant_step]
    rw [hcalc]
    simp only [hpne, Bool.false_eq_true, if_false, hcw, hnb, hp]

/-- Counterexample to C7 (the claim as stated): current node 0, visited
`{0, 1}`, unvisited `[2]`, all-zero pheromone, so every selection weight is
zero (`attraction_list` returns `[0]`).  The claim predicts a uniform draw
among the neighbours `[1, 2]` (which could return the visited node 1, as the
stream position 5 would: `neighbors.getD (rng0 5 % 2) = 1`).  Instead,
`calculate_probabilities` returns the nonempty uniform list `[1]` over the
candidates, the neighbours-fallback branch is not taken (`fellBack = false`),
and the drawn node is the unvisited candidate 2. -/
theorem C7_counterexample :
    candidates gZW [2] 0 = [2] ∧
    attraction_list gZW phZ 1 2 0 [2] = .ok [0] ∧
    calculate_probabilities gZW phZ 1 2 0 [2] = .ok [1] ∧
    ant_step gZW phZ 1 2 rng0 [0, 1] [2] 0 5 =
      .ok ⟨2, false, [0, 1, 2], [], 6⟩ ∧
    (gZW.adj 0).getD (rng0 5 % (gZW.adj 0).length) 0 = 1 ∧
    (1 : Node) ∉ ([2] : List Node) ∧ (2 : Node) ≠ 1 := by decide

/-- C7, amended: whenever the selection weights of all candidates are zero,
`calculate_probabilities` returns the uniform distribution over the
candidate list (never the empty list), so the next node is drawn from the
candidates — not from the neighbour list — the neighbours-fallback branch is
not taken, and the drawn node is always unvisited (the candidates are a
subset of the unvisited set). -/
theorem zero_weights_uniform_over_candidates (g : Graph) (ph : Phm)
    (alpha beta : ℕ) (rng : ℕ → ℕ) (route unvisited : List Node)
    (current : Node) (t : ℕ) (hnz : unvisited ≠ []) (hcur : current ∈ g.nodes)
    (ws : List ℚ)
    (hws : attraction_list g ph alpha beta current
      (candidates g unvisited current) = .ok ws)
    (hzero : ∀ x ∈ ws, x = 0)
    (hsp : ∀ v ∈ candidates g unvisited current,
      hasEdge g current v = false → (g.sp current v).isSome) :
    calculate_probabilities g ph alpha beta current (candidates g unvisited current) =
      .ok (List.replicate (candidates g unvisited current).length
        ((1 : ℚ) / (candidates g unvisited current).length)) ∧
    ∃ r, ant_step g ph alpha beta rng route unvisited current t = .ok r ∧
      r.fellBack = false ∧ r.next ∈ candidates g unvisited current ∧
      r.next ∈ unvisited := by
  have hcne : candidates g unvisited current ≠ [] :=
    candidates_ne_nil g unvisited current hnz
  have hle : ¬ (candidates g unvisited current).isEmpty = true := by
    cases hc : candidates g unvisited current
    · exact absurd hc hcne
    · simp
  have hclpos : (candidates g unvisited current).length ≠ 0 := by
    cases hc : candidates g unvisited current
    · exact absurd hc hcne
    · simp
  have hcalc : calculate_probabilities g ph alpha beta current
      (candidates g unvisited current) =
      .ok (List.replicate (candidates g unvisited current).length
        ((1 : ℚ) / (candidates g unvisited current).length)) := by
    rw [calculate_probabilities_of_attr g ph alpha beta current _ hle hcur ws hws,
      if_pos (List.sum_eq_zero hzero)]
  refine ⟨hcalc, ?_⟩
  obtain ⟨r, hstep, hfb, hmem, _, _, _⟩ := ant_step_of_probs g ph alpha beta rng
    route unvisited current t _ hcalc (by simp)
    (by rw [List.sum_replicate, nsmul_eq_mul, mul_one_div,
          div_self (Nat.cast_ne_zero.2 hclpos)])
    hcne hsp
  exact ⟨r, hstep, hfb, hmem, candidates_sub_unvisited g unvisited current r.next hmem⟩

/-- Witness for the amended C7 at the counterexample's concrete state. -/
theorem zero_weights_uniform_over_candidates_w :
    calculate_probabilities gZW phZ 1 2 0 (candidates gZW [2] 0) =
      .ok (List.replicate (candidates gZW [2] 0).length
        ((1 : ℚ) / (candidates gZW [2] 0).length)) ∧
    ∃ r, ant_step gZW phZ 1 2 rng0 [0, 1] [2] 0 5 = .ok r ∧
      r.fellBack = false ∧ r.next ∈ candidates gZW [2] 0 ∧ r.next ∈ [2] :=
  zero_weights_uniform_over_candidates gZW phZ 1 2 rng0 [0, 1] [2] 0 5
    (by decide) (by decide) [0] (by decide) (by decide) (by decide)

theorem tourLoop_runs (g : Graph) (ph : Phm) (alpha beta : ℕ) (rng : ℕ → ℕ)
    (hwf : WFAdj g) (hpos : PosW g) (hsp : SPTotal g) :
    ∀ (fuel : ℕ) (st : TourSt),
      (∀ x ∈ st.unvisited, x ∈ g.nodes) → st.current ∈ g.nodes →
      st.unvisited.length ≤ fuel →
      ∃ st', tourLoop g ph alpha beta rng fuel st = .ok st' ∧
        st'.unvisited = [] ∧ st'.steps = st.steps + st.unvisited.length ∧
        st'.fellBack = st.fellBack := by
  intro fuel
  induction fuel with
  | zero =>
    intro st h1 h2 h3
    have hnil : st.unvisited = [] := List.length_eq_zero.1 (Nat.le_zero.1 h3)
    refine ⟨st, ?_, hnil, by rw [hnil]; rfl, rfl⟩
    rw [tourLoop, if_pos (by rw [hnil]; rfl)]
  | succ fuel ih =>
    intro st h1 h2 h3
    by_cases hemp : st.unvisited.isEmpty
    · have hnil : st.unvisited = [] := by
        cases hc : st.unvisited
        · rfl
        · rw [hc] at hemp; cases hemp
      refine ⟨st, ?_, hnil, by rw [hnil]; rfl, rfl⟩
      rw [tourLoop, if_pos hemp]
    · have hne : st.unvisited ≠ [] := by
        intro hcon
        rw [hcon] at hemp
        exact hemp rfl
      have hsubn := candidates_sub_nodes g st.unvisited st.current hwf h2 h1
      have hcne := candidates_ne_nil g st.unvisited st.current hne
      obtain ⟨ps, hps⟩ := (calculate_probabilities_div_safety g ph alpha beta
        st.current (candidates g st.unvisited st.current) h2 hsubn).2.1
        (fun v hv => hpos st.current h2 v hv)
      have hcle : ¬ (candidates g st.unvisited st.current).isEmpty = true := by
        cases hc : candidates g st.unvisited st.current
        · exact absurd hc hcne
        · simp
      obtain ⟨hplen, hpsum⟩ := calculate_probabilities_spec g ph alpha beta
        st.current (candidates g st.unvisited st.current) hcle h2 ps hps
      obtain ⟨r, hstep, hfb, hmem, huner, hrt, -⟩ := ant_step_of_probs g ph alpha
        beta rng st.route st.unvisited st.current st.t ps hps hplen hpsum hcne
        (fun v hv _ => hsp st.current h2 v (hsubn v hv))
      have hnextun : r.next ∈ st.unvisited :=
        candidates_sub_unvisited g st.unvisited st.current r.next hmem
      have hulen : 0 < st.unvisited.length := List.length_pos.2 hne
      have herase : r.unvisited.length + 1 = st.unvisited.length := by
        rw [huner, List.length_erase_of_mem hnextun]
        omega
      obtain ⟨st', hloop, hu, hsteps, hfb2⟩ :=
        ih ⟨r.route, r.unvisited, r.next, r.t, st.steps + 1, st.fellBack || r.fellBack⟩
          (fun x hx => h1 x (by
            rw [huner] at hx
            exact List.erase_subset _ _ hx))
          (hsubn r.next hmem)
          (by
            show r.unvisited.length ≤ fuel
            omega)
      refine ⟨st', ?_, hu, ?_, ?_⟩
      · rw [tourLoop, if_neg hemp, hstep]
        exact hloop
      · rw [hsteps]
        show st.steps + 1 + r.unvisited.length = st.steps + st.unvisited.length
        omega
      · rw [hfb2, hfb]
        simp

/-- Counterexample to C9 (the claim as stated): on the two-node graph whose
single edge `0 → 1` has weight 0, `ant_tour` does not run its loop to
completion — the first probability computation divides by the zero edge
weight and the tour aborts with `ZeroDivisionError` after 0 of the `N-1 = 1`
expected iterations. -/
theorem C9_counterexample :
    ant_tour gBad (initPheromone gBad) 1 2 rng0 0 = .error .zeroDiv ∧
    gBad.nodes.length - 1 = 1 ∧
    tourLoop gBad (initPheromone gBad) 1 2 rng0 2 ⟨[0], [1], 0, 1, 0, false⟩ =
      .error .zeroDiv := by decide

/-- C9, amended: on a graph whose existing edges all have strictly positive
weight and whose shortest-path queries succeed between graph nodes, tour
construction terminates normally: whenever the loop body runs, the candidate
list is a nonempty subset of the unvisited set, the probability list is
computed without error and is nonempty, the sampled node is always
unvisited, each iteration removes exactly one node from the unvisited set,
the loop runs exactly `N - 1` times, and the uniform-choice-among-neighbours
fallback branch is never taken; without those provisos the loop can instead
abort through the division-by-zero error of C10. -/
theorem ant_tour_runs (g : Graph) (ph : Phm) (alpha beta : ℕ) (rng : ℕ → ℕ)
    (hwf : WFAdj g) (hpos : PosW g) (hsp : SPTotal g) :
    (∀ (route unvisited : List Node) (current : Node) (t : ℕ),
      unvisited ≠ [] → (∀ x ∈ unvisited, x ∈ g.nodes) → current ∈ g.nodes →
      candidates g unvisited current ≠ [] ∧
      (∀ c ∈ candidates g unvisited current, c ∈ unvisited) ∧
      ∃ ps r, calculate_probabilities g ph alpha beta current
          (candidates g unvisited current) = .ok ps ∧ ps ≠ [] ∧
        ant_step g ph alpha beta rng route unvisited current t = .ok r ∧
        r.fellBack = false ∧ r.next ∈ unvisited ∧
        r.unvisited = unvisited.erase r.next ∧
        r.unvisited.length + 1 = unvisited.length) ∧
    (g.nodes ≠ [] → ∀ t : ℕ,
      ∃ st', tourLoop g ph alpha beta rng g.nodes.length
          ⟨[g.nodes.getD (rng t % g.nodes.length) 0],
            g.nodes.erase (g.nodes.getD (rng t % g.nodes.length) 0),
            g.nodes.getD (rng t % g.nodes.length) 0, t + 1, 0, false⟩ = .ok st' ∧
        st'.unvisited = [] ∧ st'.steps = g.nodes.length - 1 ∧
        st'.fellBack = false ∧
        ant_tour g ph alpha beta rng t = .ok (st'.route, st'.t)) := by
  constructor
  · intro route unvisited current t hne h1 h2
    have hsubn := candidates_sub_nodes g unvisited current hwf h2 h1
    have hcne := candidates_ne_nil g unvisited current hne
    refine ⟨hcne, candidates_sub_unvisited g unvisited current, ?_⟩
    obtain ⟨ps, hps⟩ := (calculate_probabilities_div_safety g ph alpha beta
      current (candidates g unvisited current) h2 hsubn).2.1
      (fun v hv => hpos current h2 v hv)
    have hcle : ¬ (candidates g unvisited current).isEmpty = true := by
      cases hc : candidates g unvisited current
      · exact absurd hc hcne
      · simp
    obtain ⟨hplen, hpsum⟩ := calculate_probabilities_spec g ph alpha beta current
      (candidates g unvisited current) hcle h2 ps hps
    have hclpos : (candidates g unvisited current).length ≠ 0 := by
      cases hc : candidates g unvisited current
      · exact absurd hc hcne
      · simp
    obtain ⟨r, hstep, hfb, hmem, huner, hrt, -⟩ := ant_step_of_probs g ph alpha
      beta rng route unvisited current t ps hps hplen hpsum hcne
      (fun v hv _ => hsp current h2 v (hsubn v hv))
    have hnextun : r.next ∈ unvisited :=
      candidates_sub_unvisited g unvisited current r.next hmem
    refine ⟨ps, r, hps, ?_, hstep, hfb, hnextun, huner, ?_⟩
    · intro hcon
      rw [hcon] at hplen
      exact hclpos hplen.symm
    · rw [huner, List.length_erase_of_mem hnextun]
      have : 0 < unvisited.length := List.length_pos.2 hne
      omega
  · intro hgne t
    have hgpos : 0 < g.nodes.length := List.length_pos.2 hgne
    have hstart : g.nodes.getD (rng t % g.nodes.length) 0 ∈ g.nodes := by
      have hidx : rng t % g.nodes.length < g.nodes.length := Nat.mod_lt _ hgpos
      rw [List.getD_eq_getElem g.nodes 0 hidx]
      exact List.getElem_mem hidx
    obtain ⟨st', hloop, hu, hsteps, hfb⟩ := tourLoop_runs g ph alpha beta rng hwf
      hpos hsp g.nodes.length
      ⟨[g.nodes.getD (rng t % g.nodes.length) 0],
        g.nodes.erase (g.nodes.getD (rng t % g.nodes.length) 0),
        g.nodes.getD (rng t % g.nodes.length) 0, t + 1, 0, false⟩
      (fun x hx => List.erase_subset _ _ hx) hstart
      (by
        show (g.nodes.erase (g.nodes.getD (rng t % g.nodes.length) 0)).length
          ≤ g.nodes.length
        rw [List.length_erase_of_mem hstart]
        omega)
    refine ⟨st', hloop, hu, ?_, hfb, ?_⟩
    · rw [hsteps]
      show 0 + (g.nodes.erase (g.nodes.getD (rng t % g.nodes.length) 0)).length
        = g.nodes.length - 1
      rw [List.length_erase_of_mem hstart]
      omega
    · rw [ant_tour, if_neg (by
        cases hc : g.nodes
        · exact absurd hc hgne
        · simp)]
      dsimp only
      rw [hloop]

/-- Witness for the amended C9 on the strictly-positive-weight two-node
graph with a total shortest-path oracle. -/
theorem ant_tour_runs_w :
    ∃ st', tourLoop gTwo (initPheromone gTwo) 1 2 rng0 gTwo.nodes.length
        ⟨[gTwo.nodes.getD (rng0 0 % gTwo.nodes.length) 0],
          gTwo.nodes.erase (gTwo.nodes.getD (rng0 0 % gTwo.nodes.length) 0),
          gTwo.nodes.getD (rng0 0 % gTwo.nodes.length) 0, 1, 0, false⟩ = .ok st' ∧
      st'.unvisited = [] ∧ st'.steps = gTwo.nodes.length - 1 ∧
      st'.fellBack = false ∧
      ant_tour gTwo (initPheromone gTwo) 1 2 rng0 0 = .ok (st'.route, st'.t) :=
  (ant_tour_runs gTwo (initPheromone gTwo) 1 2 rng0
    (by unfold WFAdj; decide)
    (by unfold PosW; decide)
    (by unfold SPTotal; decide)).2 (by decide) 0

theorem foldl_min_of_le (a : DistQ) :
    ∀ l : List DistQ, (∀ y ∈ l, a ≤ y) → l.foldl min a = a := by
  intro l
  induction l generalizing a with
  | nil => intro _; rfl
  | cons x xs ih =>
    intro h
    rw [List.foldl_cons, min_eq_left (h x (List.mem_cons_self _ _))]
    exact ih a fun y hy => h y (List.mem_cons_of_mem _ hy)

theorem minList_sorted_head (x : DistQ) (xs : List DistQ)
    (hs : List.Sorted (· ≤ ·) (x :: xs)) : minList (x :: xs) = x := by
  rw [minList, List.foldl_cons, min_eq_right (le_top : x ≤ ⊤)]
  exact foldl_min_of_le x xs (List.sorted_cons.1 hs).1

theorem offer_minList_le (route : List Node) (d : DistQ) (br : List (List Node))
    (bd : List DistQ) (hs : List.Sorted (· ≤ ·) bd) :
    minList (offer route d br bd).2 ≤ minList bd := by
  cases bd with
  | nil => exact le_refl _
  | cons x xs =>
    rw [offer_snd_eq]
    have hres := tl_sorted d (x :: xs).length (x :: xs) hs
    rw [show (x :: xs).length = xs.length + 1 from rfl] at hres ⊢
    rw [tl] at hres ⊢
    rw [minList_sorted_head x xs hs]
    by_cases hc : d < x
    · rw [if_pos hc] at hres ⊢
      rw [minList_sorted_head _ _ hres]
      exact hc.le
    · rw [if_neg hc] at hres ⊢
      rw [minList_sorted_head _ _ hres]

theorem antsLoop_succ_err (g : Graph) (evap : ℚ) (alpha beta : ℕ) (rng : ℕ → ℕ)
    (k : ℕ) (s : SolState) (e : Err)
    (htour : ant_tour g s.ph alpha beta rng s.t = .error e) :
    antsLoop g evap alpha beta rng (k + 1) s = .error e := by
  rw [antsLoop, htour]

theorem antsLoop_succ_skip (g : Graph) (evap : ℚ) (alpha beta : ℕ) (rng : ℕ → ℕ)
    (k : ℕ) (s : SolState) (route : List Node) (t' : ℕ)
    (htour : ant_tour g s.ph alpha beta rng s.t = .ok (route, t'))
    (hremp : route.isEmpty) :
    antsLoop g evap alpha beta rng (k + 1) s =
      antsLoop g evap alpha beta rng k { s with t := t' } := by
  rw [antsLoop, htour]
  exact if_pos hremp

theorem antsLoop_succ_updErr (g : Graph) (evap : ℚ) (alpha beta : ℕ) (rng : ℕ → ℕ)
    (k : ℕ) (s : SolState) (route : List Node) (t' : ℕ) (e : Err)
    (htour : ant_tour g s.ph alpha beta rng s.t = .ok (route, t'))
    (hremp : ¬ route.isEmpty = true)
    (hupd : update_pheromones g evap s.ph route (route_distance g route) 1 =
      .error e) :
    antsLoop g evap alpha beta rng (k + 1) s = .error e := by
  rw [antsLoop, htour]
  refine Eq.trans (if_neg hremp) ?_
  show ((match update_pheromones g evap s.ph route (route_distance g route) 1 with
    | .error e => .error e
    | .ok ph' => antsLoop g evap alpha beta rng k
        ⟨ph', (offer route (route_distance g route) s.br s.bd).1,
          (offer route (route_distance g route) s.br s.bd).2, t', s.mins, s.avgs⟩ :
      Except Err SolState)) = _
  rw [hupd]

theorem antsLoop_succ_step (g : Graph) (evap : ℚ) (alpha beta : ℕ) (rng : ℕ → ℕ)
    (k : ℕ) (s : SolState) (route : List Node) (t' : ℕ) (ph' : Phm)
    (htour : ant_tour g s.ph alpha beta rng s.t = .ok (route, t'))
    (hremp : ¬ route.isEmpty = true)
    (hupd : update_pheromones g evap s.ph route (route_distance g route) 1 =
      .ok ph') :
    antsLoop g evap alpha beta rng (k + 1) s =
      antsLoop g evap alpha beta rng k
        ⟨ph', (offer route (route_distance g route) s.br s.bd).1,
          (offer route (route_distance g route) s.br s.bd).2, t', s.mins, s.avgs⟩ := by
  rw [antsLoop, htour]
  refine Eq.trans (if_neg hremp) ?_
  show ((match update_pheromones g evap s.ph route (route_distance g route) 1 with
    | .error e => .error e
    | .ok ph' => antsLoop g evap alpha beta rng k
        ⟨ph', (offer route (route_distance g route) s.br s.bd).1,
          (offer route (route_distance g route) s.br s.bd).2, t', s.mins, s.avgs⟩ :
      Except Err SolState)) = _
  rw [hupd]

theorem antsLoop_inv (g : Graph) (evap : ℚ) (alpha beta : ℕ) (rng : ℕ → ℕ) :
    ∀ (k : ℕ) (s s' : SolState),
      antsLoop g evap alpha beta rng k s = .ok s' →
      s.br.length = s.bd.length → List.Sorted (· ≤ ·) s.bd →
      s'.br.length = s.bd.length ∧ s'.bd.length = s.bd.length ∧
      List.Sorted (· ≤ ·) s'.bd ∧ minList s'.bd ≤ minList s.bd ∧
      s'.mins = s.mins ∧ s'.avgs = s.avgs := by
  intro k
  induction k with
  | zero =>
    intro s s' h h1 h2
    rw [antsLoop] at h
    cases h
    exact ⟨h1, rfl, h2, le_refl _, rfl, rfl⟩
  | succ k ih =>
    intro s s' h h1 h2
    cases htour : ant_tour g s.ph alpha beta rng s.t with
    | error e =>
      rw [antsLoop_succ_err g evap alpha beta rng k s e htour] at h
      cases h
    | ok rt =>
      obtain ⟨route, t'⟩ := rt
      by_cases hremp : route.isEmpty
      · rw [antsLoop_succ_skip g evap alpha beta rng k s route t' htour hremp] at h
        exact ih { s with t := t' } s' h h1 h2
      · cases hupd : update_pheromones g evap s.ph route (route_distance g route) 1 with
        | error e =>
          rw [antsLoop_succ_updErr g evap alpha beta rng k s route t' e htour
            hremp hupd] at h
          cases h
        | ok ph' =>
          rw [antsLoop_succ_step g evap alpha beta rng k s route t' ph' htour
            hremp hupd] at h
          have hoff := offer_length route (route_distance g route) s.br s.bd h1
          have hsorted := offer_sorted route (route_distance g route) s.br s.bd h2
          have hmin := offer_minList_le route (route_distance g route) s.br s.bd h2
          obtain ⟨c1, c2, c3, c4, c5, c6⟩ := ih _ s' h (hoff.1.trans hoff.2.symm) hsorted
          exact ⟨by rw [c1, hoff.2], by rw [c2, hoff.2], c3, c4.trans hmin, c5, c6⟩

theorem iterLoop_succ_err (g : Graph) (evap : ℚ) (alpha beta n_ants : ℕ)
    (rng : ℕ → ℕ) (k : ℕ) (s : SolState) (e : Err)
    (hants : antsLoop g evap alpha beta rng n_ants s = .error e) :
    iterLoop g evap alpha beta n_ants rng (k + 1) s = .error e := by
  rw [iterLoop, hants]

theorem iterLoop_succ_emp (g : Graph) (evap : ℚ) (alpha beta n_ants : ℕ)
    (rng : ℕ → ℕ) (k : ℕ) (s s₁ : SolState)
    (hants : antsLoop g evap alpha beta rng n_ants s = .ok s₁)
    (hemp : s₁.bd.isEmpty) :
    iterLoop g evap alpha beta n_ants rng (k + 1) s = .error .valueErr := by
  rw [iterLoop, hants]
  exact if_pos hemp

theorem iterLoop_succ_ok (g : Graph) (evap : ℚ) (alpha beta n_ants : ℕ)
    (rng : ℕ → ℕ) (k : ℕ) (s s₁ : SolState)
    (hants : antsLoop g evap alpha beta rng n_ants s = .ok s₁)
    (hemp : ¬ s₁.bd.isEmpty = true) :
    iterLoop g evap alpha beta n_ants rng (k + 1) s =
      iterLoop g evap alpha beta n_ants rng k
        { s₁ with mins := s₁.mins ++ [minList s₁.bd],
                  avgs := s₁.avgs ++ [avgList s₁.bd] } := by
  rw [iterLoop, hants]
  exact if_neg hemp

theorem iterLoop_inv (g : Graph) (evap : ℚ) (alpha beta n_ants : ℕ) (rng : ℕ → ℕ) :
    ∀ (k : ℕ) (s s' : SolState),
      iterLoop g evap alpha beta n_ants rng k s = .ok s' →
      s.br.length = s.bd.length → List.Sorted (· ≤ ·) s.bd →
      List.Chain' (fun a b => b ≤ a) s.mins →
      minList s.bd ≤ s.mins.getLastD ⊤ →
      s'.br.length = s.bd.length ∧ s'.bd.length = s.bd.length ∧
      List.Sorted (· ≤ ·) s'.bd ∧
      List.Chain' (fun a b => b ≤ a) s'.mins ∧
      minList s'.bd ≤ s'.mins.getLastD ⊤ := by
  intro k
  induction k with
  | zero =>
    intro s s' h h1 h2 h3 h4
    rw [iterLoop] at h
    cases h
    exact ⟨h1, rfl, h2, h3, h4⟩
  | succ k ih =>
    intro s s' h h1 h2 h3 h4
    cases hants : antsLoop g evap alpha beta rng n_ants s with
    | error e =>
      rw [iterLoop_succ_err g evap alpha beta n_ants rng k s e hants] at h
      cases h
    | ok s₁ =>
      obtain ⟨a1, a2, a3, a4, a5, a6⟩ := antsLoop_inv g evap alpha beta rng n_ants
        s s₁ hants h1 h2
      by_cases hemp : s₁.bd.isEmpty
      · rw [iterLoop_succ_emp g evap alpha beta n_ants rng k s s₁ hants hemp] at h
        cases h
      · rw [iterLoop_succ_ok g evap alpha beta n_ants rng k s s₁ hants hemp] at h
        have hchain : List.Chain' (fun a b => b ≤ a)
            (s₁.mins ++ [minList s₁.bd]) := by
          rw [List.chain'_append]
          refine ⟨a5 ▸ h3, List.chain'_singleton _, ?_⟩
          intro x hx y hy
          rw [List.head?_cons, Option.mem_some_iff] at hy
          subst hy
          have hlast : s₁.mins.getLastD ⊤ = x := by
            rw [List.getLastD_eq_getLast?, hx]
            rfl
          calc minList s₁.bd ≤ minList s.bd := a4
            _ ≤ s.mins.getLastD ⊤ := h4
            _ = x := by rw [← a5, hlast]
        have hlast2 : (s₁.mins ++ [minList s₁.bd]).getLastD ⊤ = minList s₁.bd := by
          rw [List.getLastD_concat]
        obtain ⟨c1, c2, c3, c4, c5⟩ := ih _ s' h (a1.trans a2.symm) a3
          hchain (by rw [hlast2])
        exact ⟨by rw [c1, a2], by rw [c2, a2], c3, c4, c5⟩

theorem construct_solution_noseed_inv (g : Graph) (evap : ℚ)
    (alpha beta n_ants : ℕ) (rng : ℕ → ℕ) (iterations : ℕ) (ph0 : Phm) (t0 : ℕ)
    (br : List (List Node)) (bd mins avgs : List DistQ)
    (hok : construct_solution g evap alpha beta n_ants rng iterations [] ph0 t0 =
      .ok (br, bd, mins, avgs)) :
    ∃ s : SolState, iterLoop g evap alpha beta n_ants rng iterations
        ⟨ph0, List.replicate n_ants [], List.replicate n_ants ⊤, t0, [], []⟩ = .ok s ∧
      s.br = br ∧ s.bd = bd ∧ s.mins = mins ∧ s.avgs = avgs := by
  rw [construct_solution] at hok
  simp only [List.isEmpty_nil, if_true] at hok
  cases hit : iterLoop g evap alpha beta n_ants rng iterations
      ⟨ph0, List.replicate n_ants [], List.replicate n_ants ⊤, t0, [], []⟩ with
  | error e =>
    rw [hit] at hok
    cases hok
  | ok s =>
    rw [hit] at hok
    injection hok with h
    rw [Prod.mk.injEq, Prod.mk.injEq, Prod.mk.injEq] at h
    exact ⟨s, rfl, h.1, h.2.1, h.2.2.1, h.2.2.2⟩

/-- Counterexample to C6 (the claim as stated): seed the two-node graph with
the routes `[[0,1],[0]]`, whose computed distances `[2, 0]` are not sorted.
During iteration 0 both ants find the route `[0, 1]` (distance 2) and the
archive stays `[2, 0]`, so the recorded minimum is 0; during iteration 1 an
ant finds `[1, 0]` (distance 1) and the buggy insertion loop overwrites both
slots, dropping the trailing 0, so the archive becomes `[1, 1]` and the
recorded minimum rises to 1: the "min" sequence `[0, 1]` is increasing. -/
theorem C6_counterexample :
    construct_solution gTwo (1/2) 1 2 2 rngC6 2 [[0, 1], [0]]
        (initPheromone gTwo) 0 =
      .ok ([[1, 0], [1, 0]], [((1 : ℚ) : DistQ), ((1 : ℚ) : DistQ)],
        [((0 : ℚ) : DistQ), ((1 : ℚ) : DistQ)],
        [((1 : ℚ) : DistQ), ((1 : ℚ) : DistQ)]) ∧
    ¬ (((1 : ℚ) : DistQ) ≤ ((0 : ℚ) : DistQ)) := by decide

/-- C6, amended: within a solver run started without initial routes (as
`run_aco` always does), the "min" sequence of the convergence history is
non-increasing across iterations; with supplied initial routes whose
distance list is unsorted the minimum can increase (see the
counterexample). -/
theorem construct_mins_nonincreasing (g : Graph) (evap : ℚ)
    (alpha beta n_ants : ℕ) (rng : ℕ → ℕ) (iterations : ℕ) (ph0 : Phm) (t0 : ℕ)
    (br : List (List Node)) (bd mins avgs : List DistQ)
    (hok : construct_solution g evap alpha beta n_ants rng iterations [] ph0 t0 =
      .ok (br, bd, mins, avgs)) :
    List.Chain' (fun a b => b ≤ a) mins := by
  obtain ⟨s, hit, -, -, hm, -⟩ := construct_solution_noseed_inv g evap alpha beta
    n_ants rng iterations ph0 t0 br bd mins avgs hok
  obtain ⟨-, -, -, hchain, -⟩ := iterLoop_inv g evap alpha beta n_ants rng
    iterations _ s hit (by simp) (sorted_replicate_top n_ants)
    List.chain'_nil (le_top)
  rw [← hm]
  exact hchain

/-- Witness for the amended C6: the one-node graph, one ant, two iterations;
the recorded min sequence is `[0, 0]`, which is non-increasing. -/
theorem construct_mins_nonincreasing_w :
    List.Chain' (fun a b => b ≤ a) [((0 : ℚ) : DistQ), ((0 : ℚ) : DistQ)] :=
  construct_mins_nonincreasing gOne (1/2) 1 2 1 rng0 2 (initPheromone gOne) 0
    [[0]] [((0 : ℚ) : DistQ)] [((0 : ℚ) : DistQ), ((0 : ℚ) : DistQ)]
    [((0 : ℚ) : DistQ), ((0 : ℚ) : DistQ)] (by decide)

/-- Counterexample to C5 (the claim as stated): on the two-node graph whose
single edge has weight 0 the run aborts with a `ZeroDivisionError` — it
neither raises the not-found error nor returns a result, although no ant
ever produced a finite-distance route. -/
theorem C5_counterexample :
    run_aco gBad (1/2) 1 2 1 rng0 1 = .error .zeroDiv ∧
    Err.zeroDiv ≠ Err.notFound := by decide

/-- C5, amended: for every run with `antCount ≥ 1` in which
`construct_solution` completes without an exception, `run_aco` raises the
not-found error if and only if the smallest recorded distance after all
iterations is still infinite; otherwise it returns the best route, its
distance, and the convergence history without raising. -/
theorem run_aco_notfound_iff (g : Graph) (evap : ℚ) (alpha beta n_ants : ℕ)
    (rng : ℕ → ℕ) (iterations : ℕ) (h1 : 1 ≤ n_ants)
    (br : List (List Node)) (bd mins avgs : List DistQ)
    (hok : construct_solution g evap alpha beta n_ants rng iterations []
      (initPheromone g) 0 = .ok (br, bd, mins, avgs)) :
    (run_aco g evap alpha beta n_ants rng iterations = .error .notFound ↔
      minList bd = ⊤) ∧
    (minList bd ≠ ⊤ →
      run_aco g evap alpha beta n_ants rng iterations =
        .ok (br.headD [], bd.headD ⊤, mins, avgs)) := by
  obtain ⟨s, hit, hbr, hbd, hm, ha⟩ := construct_solution_noseed_inv g evap alpha
    beta n_ants rng iterations (initPheromone g) 0 br bd mins avgs hok
  obtain ⟨-, hlen, hsorted, -, -⟩ := iterLoop_inv g evap alpha beta n_ants rng
    iterations _ s hit (by simp) (sorted_replicate_top n_ants)
    List.chain'_nil (le_top)
  rw [hbd] at hlen hsorted
  rw [List.length_replicate] at hlen
  have hbd_ne : bd ≠ [] := by
    intro hcon
    rw [hcon] at hlen
    simp at hlen
    omega
  obtain ⟨x, xs, rfl⟩ : ∃ x xs, bd = x :: xs := by
    cases hc : bd
    · exact absurd hc hbd_ne
    · exact ⟨_, _, rfl⟩
  have hhead : minList (x :: xs) = x := minList_sorted_head x xs hsorted
  have hrun : run_aco g evap alpha beta n_ants rng iterations =
      if x < ⊤ then .ok (br.headD [], x, mins, avgs) else .error .notFound := by
    rw [run_aco, hok]
    rfl
  rw [hrun, hhead]
  by_cases hx : x < ⊤
  · rw [if_pos hx]
    constructor
    · constructor
      · intro hcon
        cases hcon
      · intro hcon
        rw [hcon] at hx
        exact absurd hx (lt_irrefl _)
    · intro _
      rfl
  · rw [if_neg hx]
    have hxt : x = ⊤ := by
      rcases lt_or_eq_of_le (le_top : x ≤ ⊤) with h | h
      · exact absurd h hx
      · exact h
    constructor
    · exact ⟨fun _ => hxt, fun _ => rfl⟩
    · intro hcon
      exact absurd hxt hcon

/-- Witness for the amended C5: the completed run on the one-node graph
returns the singleton route with distance 0 and does not raise. -/
theorem run_aco_notfound_iff_w :
    run_aco gOne (1/2) 1 2 1 rng0 1 =
      .ok ([0], ((0 : ℚ) : DistQ), [((0 : ℚ) : DistQ)], [((0 : ℚ) : DistQ)]) :=
  (run_aco_notfound_iff gOne (1/2) 1 2 1 rng0 1 (by decide) [[0]]
    [((0 : ℚ) : DistQ)] [((0 : ℚ) : DistQ)] [((0 : ℚ) : DistQ)]
    (by decide)).2 (by decide)

theorem seedLoop_eq_reinforceAll (g : Graph) (evap : ℚ) :
    ∀ (rs : List (List Node)) (ph : Phm) (acc : List DistQ),
      seedLoop g evap rs ph acc =
        (reinforceAll g evap rs ph).map
          fun ph' => (ph', acc ++ rs.map (route_distance g)) := by
  intro rs
  induction rs with
  | nil =>
    intro ph acc
    simp [seedLoop, reinforceAll, Except.map]
  | cons r rest ih =>
    intro ph acc
    rw [seedLoop, reinforceAll]
    cases hupd : update_pheromones g evap ph r (route_distance g r) 10 with
    | error e => rfl
    | ok ph' =>
      show seedLoop g evap rest ph' (acc ++ [route_distance g r]) =
        Except.map
          (fun ph' => (ph', acc ++ (route_distance g r :: rest.map (route_distance g))))
          (reinforceAll g evap rest ph')
      rw [ih ph' (acc ++ [route_distance g r]), ← List.append_cons]

theorem update_ok_of_willSucceed (g : Graph) (evap : ℚ) (route : List Node)
    (dist : DistQ) (rate : ℚ) (h : updWillSucceed g route dist = true) :
    ∀ ph : Phm, ∃ ph', update_pheromones g evap ph route dist rate = .ok ph' := by
  have hfold : ∀ (ps : List (Node × Node)) (p : Phm),
      (∀ uv ∈ ps, uv.1 ∈ g.nodes ∧ uv.2 ∈ g.nodes ∧
        (hasEdge g uv.1 uv.2 = true → dist ≠ some 0)) →
      ∃ p', ps.foldlM (depStep g rate dist) p = .ok p' := by
    intro ps
    induction ps with
    | nil => exact fun p _ => ⟨p, rfl⟩
    | cons uv rest ih =>
      obtain ⟨a, b⟩ := uv
      intro p hp
      obtain ⟨h1, h2, h3⟩ := hp (a, b) (List.mem_cons_self _ _)
      by_cases he : hasEdge g a b
      · have hdep : ∃ dep, depositE rate dist = .ok dep := by
          cases dist with
          | none => exact ⟨0, rfl⟩
          | some q =>
            have hq : q ≠ 0 := by
              intro hcon
              exact h3 he (by rw [hcon])
            exact ⟨rate / q, by simp [depositE, hq]⟩
        obtain ⟨dep, hdep⟩ := hdep
        obtain ⟨p', hp'⟩ := ih (fun x y => if x = a ∧ y = b then p x y + dep else p x y)
          (fun x hx => hp x (List.mem_cons_of_mem _ hx))
        refine ⟨p', ?_⟩
        rw [List.foldlM_cons]
        simp only [depStep, h1, h2, he, if_true, hdep]
        exact hp'
      · obtain ⟨p', hp'⟩ := ih p (fun x hx => hp x (List.mem_cons_of_mem _ hx))
        refine ⟨p', ?_⟩
        rw [List.foldlM_cons]
        simp only [depStep, h1, h2, he, if_true, Bool.false_eq_true, if_false]
        exact hp'
  intro ph
  by_cases hremp : route.isEmpty
  · exact ⟨ph, by rw [update_pheromones, if_pos hremp]⟩
  · rw [update_pheromones, if_neg hremp]
    refine hfold (routePairs route) _ ?_
    intro uv huv
    have := List.all_eq_true.1 h uv huv
    simp only [Bool.and_eq_true, decide_eq_true_eq, Bool.or_eq_true,
      Bool.not_eq_true'] at this
    refine ⟨this.1.1, this.1.2, ?_⟩
    intro hedge
    rcases this.2 with hcon | hdist
    · rw [hedge] at hcon
      cases hcon
    · exact hdist

theorem reinforceAll_ok (g : Graph) (evap : ℚ) :
    ∀ (rs : List (List Node)) (ph : Phm),
      (∀ r ∈ rs, updWillSucceed g r (route_distance g r) = true) →
      ∃ ph1, reinforceAll g evap rs ph = .ok ph1 := by
  intro rs
  induction rs with
  | nil => exact fun ph _ => ⟨ph, rfl⟩
  | cons r rest ih =>
    intro ph hsafe
    obtain ⟨ph', hph'⟩ := update_ok_of_willSucceed g evap r (route_distance g r) 10
      (hsafe r (List.mem_cons_self _ _)) ph
    obtain ⟨ph1, hph1⟩ := ih ph' fun x hx => hsafe x (List.mem_cons_of_mem _ hx)
    refine ⟨ph1, ?_⟩
    rw [reinforceAll, hph']
    exact hph1

/-- Counterexample to C8 (the claim as stated): seeding the one-node graph
with the single route `[0]` and `antCount = 2` leaves the archive with
exactly one entry — the source truncates with `[:self.n_ants]` but never
pads, so the archive does not have exactly `antCount` entries. -/
theorem C8_counterexample :
    construct_solution gOne (1/2) 1 2 2 rng0 0 [[0]] (initPheromone gOne) 0 =
      .ok ([[0]], [((0 : ℚ) : DistQ)], [], []) ∧
    ([((0 : ℚ) : DistQ)] : List DistQ).length = 1 ∧ (1 : ℕ) ≠ 2 := by decide

/-- C8, amended: for every nonempty supplied sequence of initial routes (on
which the pheromone updates raise no exception), the seed step reinforces
the pheromone field once per supplied route, in order, with deposit rate 10
and that route's own computed distance; the archive is then set to the
supplied routes with their computed distances, truncated to at most
`antCount` entries — with fewer supplied routes than `antCount` the archive
has exactly `len(routes)` entries (no padding). -/
theorem seed_amended (g : Graph) (evap : ℚ) (alpha beta n_ants : ℕ)
    (rng : ℕ → ℕ) (routes : List (List Node)) (ph0 : Phm) (t0 : ℕ)
    (hne : routes ≠ [])
    (hsafe : ∀ r ∈ routes, updWillSucceed g r (route_distance g r) = true) :
    seedLoop g evap routes ph0 [] =
      (reinforceAll g evap routes ph0).map
        (fun ph' => (ph', routes.map (route_distance g))) ∧
    ∃ ph1, reinforceAll g evap routes ph0 = .ok ph1 ∧
      construct_solution g evap alpha beta n_ants rng 0 routes ph0 t0 =
        .ok (routes.take n_ants, (routes.map (route_distance g)).take n_ants,
          [], []) ∧
      ((routes.map (route_distance g)).take n_ants).length =
        min n_ants routes.length := by
  have heq := seedLoop_eq_reinforceAll g evap routes ph0 []
  rw [List.nil_append] at heq
  refine ⟨heq, ?_⟩
  obtain ⟨ph1, hph1⟩ := reinforceAll_ok g evap routes ph0 hsafe
  refine ⟨ph1, hph1, ?_, ?_⟩
  · have hremp : ¬ routes.isEmpty = true := by
      cases hc : routes
      · exact absurd hc hne
      · simp
    rw [construct_solution]
    simp only [hremp, Bool.false_eq_true, if_false, heq, hph1, Except.map]
    rw [iterLoop]
  · rw [List.length_take, List.length_map]

/-- Witness for the amended C8 at the counterexample's input. -/
theorem seed_amended_w :
    seedLoop gOne (1/2) [[0]] (initPheromone gOne) [] =
      (reinforceAll gOne (1/2) [[0]] (initPheromone gOne)).map
        (fun ph' => (ph', [[0]].map (route_distance gOne))) ∧
    ∃ ph1, reinforceAll gOne (1/2) [[0]] (initPheromone gOne) = .ok ph1 ∧
      construct_solution gOne (1/2) 1 2 2 rng0 0 [[0]] (initPheromone gOne) 0 =
        .ok ([[0]].take 2, ([[0]].map (route_distance gOne)).take 2, [], []) ∧
      (([[0]].map (route_distance gOne)).take 2).length = min 2 [[0]].length :=
  seed_amended gOne (1/2) 1 2 2 rng0 [[0]] (initPheromone gOne) 0
    (by decide) (by decide)
